import Mathlib

/-! Verification development for the CSS custom-property extraction and
classification engine of the prism-tooling repository.  The JavaScript
sources `src/js/tools/TokenExplorerTool.js` and
`src/js/PalettesExplorerApp.js` are shallowly embedded: JS strings are
lists of characters, JS objects used as string-keyed maps are association
lists updated in place (`insertStore`), and the regular-expression scans of
the sources are rendered as explicit executable scanners with the same
match semantics. -/

abbrev Str : Type := List Char

namespace Prism

/-- JS whitespace class (backslash-s) restricted to the ASCII characters the
stylesheets contain: space, tab, newline, carriage return, vertical tab,
form feed. -/
def isWsJS (c : Char) : Bool :=
  c = ' ' || c = '\t' || c = '\n' || c = '\x0d' || c = '\x0b' || c = '\x0c'

/-- JS `String.prototype.trim`: whitespace removed from both ends. -/
def jsTrim (s : Str) : Str :=
  ((s.dropWhile isWsJS).reverse.dropWhile isWsJS).reverse

/-- JS `String.prototype.startsWith`. -/
def strStarts (s p : Str) : Bool :=
  match s, p with
  | _, [] => true
  | [], _ :: _ => false
  | c :: s, d :: p => c = d && strStarts s p

/-- JS `String.prototype.includes`: the second string occurs as a contiguous
substring of the first. -/
def strIncl (s sub : Str) : Bool :=
  match s with
  | [] => strStarts [] sub
  | _ :: t => strStarts s sub || strIncl t sub

theorem strStarts_iff (s p : Str) : strStarts s p = true ↔ p <+: s := by
  induction p generalizing s with
  | nil => simp [strStarts]
  | cons d p ih =>
    cases s with
    | nil =>
      simp only [strStarts, Bool.false_eq_true, false_iff]
      exact fun h => by simpa using h.length_le
    | cons c s =>
      simp only [strStarts, Bool.and_eq_true, decide_eq_true_eq, ih,
        List.cons_prefix_cons]
      tauto

theorem strIncl_iff (s sub : Str) : strIncl s sub = true ↔ sub <:+: s := by
  induction s with
  | nil =>
    simp only [strIncl, strStarts_iff]
    constructor
    · exact fun h => h.isInfix
    · intro h
      have : sub = [] := by
        have := h.length_le
        simpa using List.eq_nil_of_length_eq_zero (Nat.le_zero.mp (by simpa using this))
      simp [this]
  | cons c t ih =>
    simp only [strIncl, Bool.or_eq_true, strStarts_iff, ih]
    exact (List.infix_cons_iff).symm

theorem strStarts_of_append (s p q : Str) (h : strStarts s (p ++ q) = true) :
    strStarts s p = true := by
  rw [strStarts_iff] at h ⊢
  exact (List.prefix_append p q).trans h

/-- String-keyed map modelled as an insertion-ordered association list; a JS
object assignment `m[k] = v` updates the existing entry in place or appends
a new one. -/
abbrev Store (α : Type) : Type := List (Str × α)

def emptyStore {α : Type} : Store α := []

def containsKey {α : Type} (m : Store α) (k : Str) : Bool :=
  m.any (fun p => p.1 = k)

def lookupStore {α : Type} (m : Store α) (k : Str) : Option α :=
  match m with
  | [] => none
  | p :: rest => if p.1 = k then some p.2 else lookupStore rest k

/-- In-place update used by `insertStore` when the key is present. -/
def updEntry {α : Type} (k : Str) (v : α) (p : Str × α) : Str × α :=
  if p.1 = k then (k, v) else p

def insertStore {α : Type} (m : Store α) (k : Str) (v : α) : Store α :=
  if containsKey m k then m.map (updEntry k v) else m ++ [(k, v)]

/-- JS `Object.assign(m, src)`: every entry of `src` written into `m` in
order. -/
def assignStore {α : Type} (m src : Store α) : Store α :=
  src.foldl (fun acc p => insertStore acc p.1 p.2) m

def storeKeys {α : Type} (m : Store α) : List Str := m.map (fun p => p.1)

def nodupKeys {α : Type} (m : Store α) : Prop := (storeKeys m).Nodup

instance {α : Type} (m : Store α) : Decidable (nodupKeys m) := by
  unfold nodupKeys
  infer_instance

/-- How many entries of the store carry the key. -/
def countKey {α : Type} (m : Store α) (k : Str) : Nat :=
  m.countP (fun p => p.1 = k)

theorem containsKey_iff {α : Type} (m : Store α) (k : Str) :
    containsKey m k = true ↔ ∃ v, (k, v) ∈ m := by
  induction m with
  | nil => simp [containsKey]
  | cons p rest ih =>
    simp only [containsKey, List.any_cons, Bool.or_eq_true, decide_eq_true_eq] at *
    constructor
    · rintro (h | h)
      · exact ⟨p.2, by simp [← h]⟩
      · obtain ⟨v, hv⟩ := ih.mp h
        exact ⟨v, List.mem_cons_of_mem _ hv⟩
    · rintro ⟨v, hv⟩
      rcases List.mem_cons.mp hv with h | h
      · exact Or.inl (by rw [← h])
      · exact Or.inr (ih.mpr ⟨v, h⟩)

theorem containsKey_cons {α : Type} (p : Str × α) (rest : Store α) (k : Str) :
    containsKey (p :: rest) k = (decide (p.1 = k) || containsKey rest k) := rfl

theorem containsKey_cons_of_ne {α : Type} (p : Str × α) (rest : Store α) (k : Str)
    (hp : ¬ p.1 = k) (h : containsKey (p :: rest) k = true) :
    containsKey rest k = true := by
  rw [containsKey_cons] at h
  simp only [Bool.or_eq_true] at h
  rcases h with h | h
  · exact absurd (of_decide_eq_true h) hp
  · exact h

theorem containsKey_of_head {α : Type} {p : Str × α} {rest : Store α} {k : Str}
    (hk : p.1 = k) : containsKey (p :: rest) k = true := by
  rw [containsKey_cons, hk]
  simp

theorem containsKey_of_tail {α : Type} {p : Str × α} {rest : Store α} {k : Str}
    (h : containsKey rest k = true) : containsKey (p :: rest) k = true := by
  rw [containsKey_cons, h]
  simp

theorem not_containsKey_nil {α : Type} (k : Str) :
    containsKey (emptyStore (α := α)) k = false := rfl

theorem lookup_map_upd_self {α : Type} (m : Store α) (k : Str) (v : α)
    (h : containsKey m k = true) :
    lookupStore (m.map (updEntry k v)) k = some v := by
  induction m with
  | nil => exact Bool.false_ne_true (show false = true from h) |>.elim
  | cons p rest ih =>
    by_cases hp : p.1 = k
    · simp [lookupStore, updEntry, hp]
    · have : containsKey rest k = true := containsKey_cons_of_ne p rest k hp h
      simpa [lookupStore, updEntry, hp] using ih this

theorem lookup_map_upd_ne {α : Type} (m : Store α) (k n : Str) (v : α)
    (h : n ≠ k) :
    lookupStore (m.map (updEntry k v)) n = lookupStore m n := by
  induction m with
  | nil => rfl
  | cons p rest ih =>
    have hkn : ¬ ((k : Str) = n) := fun hh => h hh.symm
    by_cases hp : p.1 = k
    · have hpn : ¬ (p.1 = n) := by rw [hp]; exact hkn
      simp [lookupStore, updEntry, hp, hkn, hpn, h, ih]
    · by_cases hn : p.1 = n
      · simp [lookupStore, updEntry, hp, hn, h]
      · simp [lookupStore, updEntry, hp, hn, ih]

theorem lookup_insert_self {α : Type} (m : Store α) (k : Str) (v : α) :
    lookupStore (insertStore m k v) k = some v := by
  unfold insertStore
  by_cases h : containsKey m k = true
  · simpa [h] using lookup_map_upd_self m k v h
  · simp only [h, Bool.false_eq_true, if_false]
    induction m with
    | nil => simp [lookupStore]
    | cons p rest ih =>
      have hp : p.1 ≠ k := fun hk => h (containsKey_of_head hk)
      have hr : ¬ containsKey rest k = true := fun hk => h (containsKey_of_tail hk)
      simpa [lookupStore, hp] using ih hr

theorem lookup_insert_ne {α : Type} (m : Store α) (k n : Str) (v : α)
    (h : n ≠ k) : lookupStore (insertStore m k v) n = lookupStore m n := by
  unfold insertStore
  by_cases hc : containsKey m k = true
  · simpa [hc] using lookup_map_upd_ne m k n v h
  · simp only [hc, Bool.false_eq_true, if_false]
    clear hc
    induction m with
    | nil =>
      have : ¬ ((k : Str) = n) := fun hh => h hh.symm
      simp [lookupStore, this]
    | cons p rest ih =>
      by_cases hn : p.1 = n
      · simp [lookupStore, hn]
      · simp [lookupStore, hn, ih]

theorem containsKey_map_upd {α : Type} (m : Store α) (k n : Str) (v : α) :
    containsKey (m.map (updEntry k v)) n =
      if n = k then containsKey m k else containsKey m n := by
  induction m with
  | nil => simp [containsKey]
  | cons p rest ih =>
    by_cases hp : p.1 = k
    · by_cases hn : n = k
      · simp [containsKey, updEntry, hp, hn]
      · simp only [containsKey, List.map_cons, List.any_cons, updEntry, hp,
          if_true] at *
        have : ¬ ((k : Str) = n) := fun hh => hn hh.symm
        simp [this, hn] at ih ⊢
        exact ih
    · by_cases hn : n = k
      · subst hn
        simp only [containsKey, List.map_cons, List.any_cons, updEntry, hp,
          if_false] at *
        simp [hp] at ih ⊢
        simpa using ih
      · simp only [containsKey, List.map_cons, List.any_cons, updEntry, hp,
          if_false] at *
        simp [hn] at ih ⊢
        rw [ih]

theorem containsKey_insert {α : Type} (m : Store α) (k n : Str) (v : α) :
    containsKey (insertStore m k v) n = true ↔ n = k ∨ containsKey m n = true := by
  unfold insertStore
  by_cases hc : containsKey m k = true
  · simp only [hc, if_true]
    rw [containsKey_map_upd]
    by_cases hn : n = k
    · simp [hn, hc]
    · simp [hn]
  · simp only [hc, Bool.false_eq_true, if_false]
    constructor
    · intro h
      rcases (containsKey_iff _ _).mp h with ⟨w, hw⟩
      rcases List.mem_append.mp hw with hw | hw
      · exact Or.inr ((containsKey_iff _ _).mpr ⟨w, hw⟩)
      · simp only [List.mem_singleton, Prod.mk.injEq] at hw
        exact Or.inl hw.1
    · rintro (h | h)
      · subst h
        exact (containsKey_iff _ _).mpr ⟨v, List.mem_append.mpr (Or.inr (by simp))⟩
      · rcases (containsKey_iff _ _).mp h with ⟨w, hw⟩
        exact (containsKey_iff _ _).mpr ⟨w, List.mem_append.mpr (Or.inl hw)⟩

theorem nodupKeys_insert {α : Type} (m : Store α) (k : Str) (v : α)
    (h : nodupKeys m) : nodupKeys (insertStore m k v) := by
  unfold insertStore
  by_cases hc : containsKey m k = true
  · simp only [hc, if_true]
    unfold nodupKeys storeKeys at *
    have : (m.map (updEntry k v)).map (fun p => p.1) = m.map (fun p => p.1) := by
      rw [List.map_map]
      apply List.map_congr_left
      intro p _
      by_cases hp : p.1 = k <;> simp [updEntry, hp]
    rw [this]
    exact h
  · unfold nodupKeys storeKeys at *
    simp only [hc, Bool.false_eq_true, if_false, List.map_append, List.map_cons,
      List.map_nil]
    rw [List.nodup_append]
    refine ⟨h, by simp, ?_⟩
    intro a ha hb
    simp only [List.mem_singleton] at hb
    subst hb
    rcases List.mem_map.mp ha with ⟨p, hp, hpa⟩
    exact absurd ((containsKey_iff m a).mpr ⟨p.2, by
      rwa [show (a, p.2) = p from Prod.ext hpa.symm rfl]⟩) (by simpa using hc)

theorem countKey_cons {α : Type} (p : Str × α) (rest : Store α) (k : Str) :
    countKey (p :: rest) k = countKey rest k + (if p.1 = k then 1 else 0) := by
  unfold countKey
  rw [List.countP_cons]
  by_cases hp : p.1 = k <;> simp [hp]

theorem countKey_eq_one {α : Type} (m : Store α) (k : Str)
    (hnd : nodupKeys m) (hc : containsKey m k = true) : countKey m k = 1 := by
  induction m with
  | nil => exact Bool.false_ne_true (show false = true from hc) |>.elim
  | cons p rest ih =>
    unfold nodupKeys storeKeys at hnd
    simp only [List.map_cons, List.nodup_cons] at hnd
    rw [countKey_cons]
    by_cases hp : p.1 = k
    · have hz : countKey rest k = 0 := by
        unfold countKey
        rw [List.countP_eq_zero]
        intro q hq
        simp only [decide_eq_true_eq]
        intro hqk
        exact hnd.1 (by rw [hp, ← hqk]; exact List.mem_map.mpr ⟨q, hq, rfl⟩)
      rw [hz, if_pos hp]
    · have hr : containsKey rest k = true := containsKey_cons_of_ne p rest k hp hc
      rw [ih hnd.2 hr, if_neg hp]

/-- Lookup with last-write-wins precedence over a plain list of pairs:
the value of the latest pair carrying the key. -/
def lastLookup {α : Type} (s : Store α) (k : Str) : Option α :=
  lookupStore s.reverse k

theorem lookup_append {α : Type} (a b : Store α) (k : Str) :
    lookupStore (a ++ b) k =
      match lookupStore a k with
      | some v => some v
      | none => lookupStore b k := by
  induction a with
  | nil => simp [lookupStore]
  | cons p rest ih =>
    by_cases hp : p.1 = k <;> simp [lookupStore, hp, ih]

theorem lookup_assign {α : Type} (m src : Store α) (k : Str) :
    lookupStore (assignStore m src) k =
      match lastLookup src k with
      | some v => some v
      | none => lookupStore m k := by
  induction src generalizing m with
  | nil => simp [assignStore, lastLookup, lookupStore]
  | cons p rest ih =>
    have step : assignStore m (p :: rest) = assignStore (insertStore m p.1 p.2) rest := by
      simp [assignStore]
    rw [step, ih]
    unfold lastLookup
    simp only [List.reverse_cons]
    rw [lookup_append]
    cases hr : lookupStore rest.reverse k with
    | some v => simp
    | none =>
      simp only [lookupStore]
      by_cases hp : p.1 = k
      · subst hp
        simp [lookup_insert_self m p.1 p.2]
      · simp [hp, lookup_insert_ne m p.1 k p.2 (fun h => hp h.symm)]


def toStr (s : String) : Str := s.toList

/-- Insertion step of a stable sort by a boolean comparator: the new element
goes after every element that compares less-or-equal before it. -/
def insOrd {α : Type} (le : α → α → Bool) (x : α) : List α → List α
  | [] => [x]
  | y :: ys => if le y x then y :: insOrd le x ys else x :: y :: ys

/-- Model of `Array.prototype.sort` with a consistent comparator: a stable
sort ordered by the comparator's sign. -/
def sortJS {α : Type} (le : α → α → Bool) (l : List α) : List α :=
  l.foldl (fun acc x => insOrd le x acc) []

theorem mem_insOrd {α : Type} (le : α → α → Bool) (x a : α) (l : List α) :
    a ∈ insOrd le x l ↔ a = x ∨ a ∈ l := by
  induction l with
  | nil => simp [insOrd]
  | cons y ys ih =>
    unfold insOrd
    by_cases hle : le y x = true
    · simp only [hle, if_true, List.mem_cons, ih]
      tauto
    · simp only [hle, Bool.false_eq_true, if_false, List.mem_cons]

theorem mem_sortJS {α : Type} (le : α → α → Bool) (a : α) (l : List α) :
    a ∈ sortJS le l ↔ a ∈ l := by
  suffices h : ∀ acc, a ∈ l.foldl (fun acc x => insOrd le x acc) acc ↔ a ∈ acc ∨ a ∈ l by
    unfold sortJS
    simpa using h []
  induction l with
  | nil => intro acc; simp
  | cons x xs ih =>
    intro acc
    simp only [List.foldl_cons, ih, mem_insOrd, List.mem_cons]
    tauto

theorem pairwise_insOrd {α : Type} (le : α → α → Bool)
    (htot : ∀ a b, le a b = true ∨ le b a = true)
    (htrans : ∀ a b c, le a b = true → le b c = true → le a c = true)
    (x : α) (l : List α) (h : l.Pairwise (fun a b => le a b = true)) :
    (insOrd le x l).Pairwise (fun a b => le a b = true) := by
  induction l with
  | nil => simp [insOrd]
  | cons y ys ih =>
    rcases List.pairwise_cons.mp h with ⟨hy, hys⟩
    unfold insOrd
    by_cases hle : le y x = true
    · simp only [hle, if_true]
      rw [List.pairwise_cons]
      refine ⟨?_, ih hys⟩
      intro a ha
      rcases (mem_insOrd le x a ys).mp ha with rfl | ha
      · exact hle
      · exact hy a ha
    · simp only [hle, Bool.false_eq_true, if_false]
      rw [List.pairwise_cons]
      have hxy : le x y = true := by
        rcases htot x y with h' | h'
        · exact h'
        · exact absurd h' hle
      refine ⟨?_, h⟩
      intro a ha
      rcases List.mem_cons.mp ha with rfl | ha
      · exact hxy
      · exact htrans x y a hxy (hy a ha)

theorem pairwise_sortJS {α : Type} (le : α → α → Bool)
    (htot : ∀ a b, le a b = true ∨ le b a = true)
    (htrans : ∀ a b c, le a b = true → le b c = true → le a c = true)
    (l : List α) :
    (sortJS le l).Pairwise (fun a b => le a b = true) := by
  suffices h : ∀ acc, acc.Pairwise (fun a b => le a b = true) →
      (l.foldl (fun acc x => insOrd le x acc) acc).Pairwise (fun a b => le a b = true) by
    exact h [] (by simp)
  induction l with
  | nil => intro acc hacc; simpa using hacc
  | cons x xs ih =>
    intro acc hacc
    exact ih _ (pairwise_insOrd le htot htrans x acc hacc)

/-- The largest integer a JS number represents exactly
(`Number.MAX_SAFE_INTEGER`). -/
def MAX_SAFE_INTEGER : Int := 2 ^ 53 - 1

def digitsVal (s : Str) : Nat := s.foldl (fun a c => 10 * a + (c.toNat - 48)) 0

/-- The digit run `parseInt(s, 10)` consumes, if any. -/
def digitRun (t : Str) : Option Nat :=
  let run := t.takeWhile Char.isDigit
  if run = [] then none else some (digitsVal run)

/-- JS `parseInt(s, 10)`: optional leading whitespace, optional sign,
then a maximal digit run; `none` models `NaN`. -/
def jsParseInt10 (s : Str) : Option Int :=
  match s.dropWhile isWsJS with
  | [] => none
  | c :: t =>
    if c = '-' then (digitRun t).map (fun n => -(n : Int))
    else if c = '+' then (digitRun t).map (fun n => (n : Int))
    else (digitRun (c :: t)).map (fun n => (n : Int))

/-- `parseNumericStep` of PalettesExplorerApp.js: empty input and inputs
whose digits cannot be parsed sort as `MAX_SAFE_INTEGER`; leading zeros are
stripped first, an all-zero step is 0. -/
def parseNumericStep (step : Str) : Int :=
  if step = [] then MAX_SAFE_INTEGER
  else
    let cleaned := step.dropWhile (fun c => c = '0')
    if cleaned = [] then 0
    else
      match jsParseInt10 cleaned with
      | none => MAX_SAFE_INTEGER
      | some v => v

structure Swatch where
  mk ::
  step : Str
  displayStep : Str
  fallback : Str
  cssVar : Str
deriving DecidableEq

structure Row where
  mk ::
  id : Str
  label : Str
  swatches : List Swatch
deriving DecidableEq

/-- `buildSwatch(step, value, cssVarName, displayStep)`: trailing semicolon
stripped from the value, a `var(...)` wrapper stripped from the name. -/
def buildSwatch (step value cssVarName : Str) (displayStep : Option Str) : Swatch :=
  let normalizedValue := if value.getLast? = some ';' then value.dropLast else value
  let label := displayStep.getD step
  let varName :=
    if strStarts cssVarName (toStr "var(") then (cssVarName.drop 4).dropLast
    else cssVarName
  Swatch.mk step label normalizedValue varName

def capitalizeWord (w : Str) : Str :=
  match w with
  | [] => []
  | c :: rest => c.toUpper :: rest

/-- `formatLabel`: split the family identifier on hyphens and title-case
each word. -/
def formatLabel (family : Str) : Str :=
  List.intercalate [' '] ((family.splitOn '-').map capitalizeWord)

/-- Code-unit lexicographic string comparison, the model used here for both
the default `Array.prototype.sort()` string order and `localeCompare`
tie-breaking (no claim depends on the locale order of distinct labels). -/
def lexLe (a b : Str) : Bool :=
  match a, b with
  | [], _ => true
  | _ :: _, [] => false
  | c :: s, d :: t => if c = d then lexLe s t else decide (c.toNat < d.toNat)

/-- `preferredOrder.indexOf(id)` with `-1` mapped to
`Number.MAX_SAFE_INTEGER` as in `orderRows`. -/
def safeIdx (pref : List Str) (x : Str) : Int :=
  match pref.findIdx? (fun y => y = x) with
  | some i => (i : Int)
  | none => MAX_SAFE_INTEGER

def swatchLe (sortFn : Str → Int) (a b : Swatch) : Bool :=
  decide (sortFn a.step ≤ sortFn b.step)

def rowLe (pref : List Str) (a b : Row) : Bool :=
  decide (safeIdx pref a.id < safeIdx pref b.id) ||
    (decide (safeIdx pref a.id = safeIdx pref b.id) && lexLe a.label b.label)

/-- `step.padStart(2, '0')`. -/
def padStart2 (s : Str) : Str :=
  if s.length ≥ 2 then s else List.replicate (2 - s.length) '0' ++ s

/-- `orderRows(rowsMap, preferredOrder, sortFn, options)`: swatches of each
family row sorted ascending by `sortFn`, rows sorted by preferred-family
index with label tie-breaking, display steps re-padded when
`keepLeadingZero` is set. -/
def orderRows (rowsMap : Store (List Swatch)) (preferredOrder : List Str)
    (sortFn : Str → Int) (keepLeadingZero : Bool) : List Row :=
  let rowsArray := rowsMap.map (fun p =>
    Row.mk p.1 (formatLabel p.1) (sortJS (swatchLe sortFn) p.2))
  let sorted := sortJS (rowLe preferredOrder) rowsArray
  if keepLeadingZero then
    sorted.map (fun r => Row.mk r.id r.label
      (r.swatches.map (fun sw => Swatch.mk sw.step (padStart2 sw.step) sw.fallback sw.cssVar)))
  else sorted

def GENERAL_ORDER : List Str :=
  [toStr "brand", toStr "info", toStr "success", toStr "warning",
   toStr "critical", toStr "intelligence", toStr "neutral"]

def ALPHA_ORDER : List Str :=
  [toStr "info", toStr "success", toStr "warning", toStr "critical",
   toStr "intelligence", toStr "neutral", toStr "brand"]

def CHART_ORDER : List Str :=
  [toStr "info", toStr "success", toStr "warning", toStr "critical",
   toStr "intelligence", toStr "neutral", toStr "brand-sunset",
   toStr "categorical"]

/-- Character class `[a-z0-9-]` under the `i` flag. -/
def isFamChar (c : Char) : Bool :=
  ('a' ≤ c.toLower && c.toLower ≤ 'z') || c.isDigit || c = '-'

/-- Case-insensitive anchored literal match of a lowercase pattern, giving
the original-case remainder (the `i` flag on the builder regexes). -/
def matchCI (pre n : Str) : Option Str :=
  if strStarts (n.map Char.toLower) pre then some (n.drop pre.length) else none

/-- Capture groups of the regex tail `([a-z0-9-]+)-([0-9]{2,3})$` under `i`:
the greedy family takes the maximum, so a two-digit step is preferred over a
three-digit one. -/
def famStepSplit (rest : Str) : Option (Str × Str) :=
  let n := rest.length
  if n ≥ 4 ∧ rest.take (n - 3) ≠ [] ∧ (rest.take (n - 3)).all isFamChar = true ∧
      (rest.drop (n - 3)).take 1 = ['-'] ∧ (rest.drop (n - 2)).all Char.isDigit = true then
    some (rest.take (n - 3), rest.drop (n - 2))
  else if n ≥ 5 ∧ rest.take (n - 4) ≠ [] ∧ (rest.take (n - 4)).all isFamChar = true ∧
      (rest.drop (n - 4)).take 1 = ['-'] ∧ (rest.drop (n - 3)).all Char.isDigit = true then
    some (rest.take (n - 4), rest.drop (n - 3))
  else none

/-- Capture groups of the regex tail `([a-z0-9-]+)-([0-9]{2})$` under `i`
(chart sequential: exactly two step digits). -/
def famStep2Split (rest : Str) : Option (Str × Str) :=
  let n := rest.length
  if n ≥ 4 ∧ rest.take (n - 3) ≠ [] ∧ (rest.take (n - 3)).all isFamChar = true ∧
      (rest.drop (n - 3)).take 1 = ['-'] ∧ (rest.drop (n - 2)).all Char.isDigit = true then
    some (rest.take (n - 3), rest.drop (n - 2))
  else none

/-- Capture group of the regex tail `([0-9]{2})$` (chart categorical). -/
def step2Only (rest : Str) : Option Str :=
  if rest.length = 2 ∧ rest.all Char.isDigit = true then some rest else none

/-- `rows.get(family).push(swatch)` with `rows.set(family, [])` on a new
family. -/
def pushRow (rows : Store (List Swatch)) (fam : Str) (sw : Swatch) :
    Store (List Swatch) :=
  match lookupStore rows fam with
  | some l => insertStore rows fam (l ++ [sw])
  | none => insertStore rows fam [sw]

/-- `buildGeneralPalettes(vars)` of PalettesExplorerApp.js. -/
def buildGeneralPalettes (vars : Store Str) : List Row :=
  let rows := vars.foldl (fun rows p =>
    if strStarts p.1 (toStr "--prism-color-general-") = true then
      if strIncl p.1 (toStr "-alpha-") = true then rows
      else
        match matchCI (toStr "--prism-color-general-") p.1 with
        | none => rows
        | some rest =>
          match famStepSplit rest with
          | none => rows
          | some (family, step) => pushRow rows family (buildSwatch step p.2 p.1 none)
    else rows) emptyStore
  orderRows rows GENERAL_ORDER parseNumericStep false

/-- `buildAlphaPalettes(vars)` of PalettesExplorerApp.js. -/
def buildAlphaPalettes (vars : Store Str) : List Row :=
  let rows := vars.foldl (fun rows p =>
    if strStarts p.1 (toStr "--prism-color-general-alpha-") = true then
      match matchCI (toStr "--prism-color-general-alpha-") p.1 with
      | none => rows
      | some rest =>
        match famStepSplit rest with
        | none => rows
        | some (family, step) => pushRow rows family (buildSwatch step p.2 p.1 none)
    else rows) emptyStore
  orderRows rows ALPHA_ORDER parseNumericStep false

/-- `buildChartPalettes(vars)` of PalettesExplorerApp.js. -/
def buildChartPalettes (vars : Store Str) : List Row :=
  let rows := vars.foldl (fun rows p =>
    match (matchCI (toStr "--prism-color-chart-sequential-") p.1).bind famStep2Split with
    | some (family, step) => pushRow rows family (buildSwatch step p.2 p.1 (some step))
    | none =>
      match (matchCI (toStr "--prism-color-chart-categorical-") p.1).bind step2Only with
      | some step => pushRow rows (toStr "categorical") (buildSwatch step p.2 p.1 (some step))
      | none => rows) emptyStore
  orderRows rows CHART_ORDER parseNumericStep true

structure Token where
  mk ::
  name : Str
  value : Str
  raw : Str
  type : Str
deriving DecidableEq

/-- Token `type` tag derived from the name in `buildGroupedTokens`
(lines 175-189 of TokenExplorerTool.js).  The later in-branch assignments
`token.type = ...` always re-assign this same value, so every stored token
carries this tag. -/
def tokenTypeOf (name : Str) : Str :=
  if strStarts name (toStr "--prism-color-") || strStarts name (toStr "--color-") then
    toStr "color"
  else if strStarts name (toStr "--prism-gradient-") then toStr "gradient"
  else if strStarts name (toStr "--prism-typography-") then toStr "typography"
  else if strStarts name (toStr "--prism-spacing-") then toStr "spacing"
  else if strStarts name (toStr "--prism-shadow-") then toStr "shadow"
  else if strStarts name (toStr "--prism-radius-") ||
      strStarts name (toStr "--prism-border-radius-") ||
      strStarts name (toStr "--border-radius-") then toStr "border-radius"
  else toStr "variable"

/-- `const token = { name, value, raw: value, type: tokenType }`. -/
def mkToken (n v : Str) : Token := Token.mk n v v (tokenTypeOf n)

/-- The category/subcategory slots of the `grouped` literal: Colors has
eight subcategories, Gradients two, the remaining categories hold tokens
directly. -/
inductive Bucket where
  | colInteractive | colBackground | colText | colIcon | colBorder
  | colElevation | colChart | colLegacy
  | gradInteractive | gradGeneral
  | typography | spacing | shadows | borderRadius | other
deriving DecidableEq

abbrev Buckets := Bucket → Store Token

/-- The destination slot of the if/else categorization chain
(lines 196-247 of TokenExplorerTool.js); `none` when the chain stores the
token nowhere (chart categorical/sequential colors and `--prism-color-`
names matching no subcategory rule). -/
def classify (name : Str) : Option Bucket :=
  if strStarts name (toStr "--prism-color-") then
    if strStarts name (toStr "--prism-color-chart-") then
      if strStarts name (toStr "--prism-color-chart-categorical-") = false ∧
          strStarts name (toStr "--prism-color-chart-sequential-") = false then
        some Bucket.colChart
      else none
    else if strStarts name (toStr "--prism-color-interactive-") then some Bucket.colInteractive
    else if strStarts name (toStr "--prism-color-background-") then some Bucket.colBackground
    else if strStarts name (toStr "--prism-color-text-") then some Bucket.colText
    else if strStarts name (toStr "--prism-color-icon-") then some Bucket.colIcon
    else if strStarts name (toStr "--prism-color-border-") ||
        strStarts name (toStr "--prism-color-outline-") then some Bucket.colBorder
    else if strStarts name (toStr "--prism-color-elevation-") then some Bucket.colElevation
    else none
  else if strStarts name (toStr "--prism-gradient-") then
    if strIncl name (toStr "interactive") then some Bucket.gradInteractive
    else some Bucket.gradGeneral
  else if strStarts name (toStr "--prism-typography-") then some Bucket.typography
  else if strStarts name (toStr "--prism-spacing-") then some Bucket.spacing
  else if strStarts name (toStr "--prism-shadow-") then some Bucket.shadows
  else if strStarts name (toStr "--prism-radius-") ||
      strStarts name (toStr "--prism-border-radius-") ||
      strStarts name (toStr "--border-radius-") then some Bucket.borderRadius
  else if strStarts name (toStr "--color-") then some Bucket.colLegacy
  else some Bucket.other

def addToBuckets (bs : Buckets) (n v : Str) : Buckets :=
  match classify n with
  | none => bs
  | some b => fun c => if c = b then insertStore (bs b) n (mkToken n v) else bs c

/-- The categorization pass over the effective map: names not starting with
the double-dash sentinel are skipped. -/
def categorize (effective : Store Str) : Buckets :=
  effective.foldl (fun bs p =>
    if strStarts p.1 (toStr "--") then addToBuckets bs p.1 p.2 else bs)
    (fun _ => emptyStore)

/-- `allProcessedTokens` (lines 253-275): a fresh token per double-dash
entry of the effective map. -/
def allProcessedTokens (effective : Store Str) : Store Token :=
  effective.foldl (fun m p =>
    if strStarts p.1 (toStr "--") then insertStore m p.1 (mkToken p.1 p.2) else m)
    emptyStore

/-- An `orderedAllVariables` value: either a token object or one of the
string fields written by the direct-category branch (see `insertDirectCat`). -/
abbrev AllVal := Token ⊕ Str

def colorsSubOrder : List Bucket :=
  [Bucket.colInteractive, Bucket.colBackground, Bucket.colText, Bucket.colIcon,
   Bucket.colBorder, Bucket.colElevation, Bucket.colChart, Bucket.colLegacy]

def gradientsSubOrder : List Bucket := [Bucket.gradInteractive, Bucket.gradGeneral]

def directCatOrder : List Bucket :=
  [Bucket.typography, Bucket.spacing, Bucket.shadows, Bucket.borderRadius,
   Bucket.other]

def bucketList : List Bucket := colorsSubOrder ++ gradientsSubOrder ++ directCatOrder

/-- Subcategory pass of the "All" rebuild: keys sorted with the default
string sort, each token written under its name. -/
def insertBucketSorted (acc : Store AllVal) (bucket : Store Token) : Store AllVal :=
  (sortJS lexLe (storeKeys bucket)).foldl (fun acc k =>
    match lookupStore bucket k with
    | some t => insertStore acc k (Sum.inl t)
    | none => acc) acc

/-- `Object.keys(token).sort()` for a token literal: the four field names in
alphabetical order, each paired with its string value. -/
def tokenFieldVals (t : Token) : List (Str × Str) :=
  [(toStr "name", t.name), (toStr "raw", t.raw), (toStr "type", t.type),
   (toStr "value", t.value)]

/-- Direct-category pass of the "All" rebuild.  A direct category (such as
Typography) passes the `!category.name` test, so the code treats each stored
token as a subcategory: it iterates the token object's own sorted field
names and writes the truthy (non-empty) field strings into the "All" map
under the field-name keys. -/
def insertDirectCat (acc : Store AllVal) (bucket : Store Token) : Store AllVal :=
  bucket.foldl (fun acc p =>
    (tokenFieldVals p.2).foldl (fun acc fv =>
      if fv.2 ≠ [] then insertStore acc fv.1 (Sum.inr fv.2) else acc) acc) acc

/-- Fallback pass (lines 338-343): every processed token absent from the
ordered map is appended. -/
def insertFallback (acc : Store AllVal) (ap : Store Token) : Store AllVal :=
  ap.foldl (fun acc p =>
    if containsKey acc p.1 then acc else insertStore acc p.1 (Sum.inl p.2)) acc

/-- The "All tokens" rebuild (lines 250-346): Colors and Gradients
subcategories in declared order with sorted keys, then the direct
categories, then the fallback. -/
def buildAll (bs : Buckets) (ap : Store Token) : Store AllVal :=
  insertFallback
    (directCatOrder.foldl (fun acc b => insertDirectCat acc (bs b))
      ((colorsSubOrder ++ gradientsSubOrder).foldl
        (fun acc b => insertBucketSorted acc (bs b)) emptyStore))
    ap

structure Grouped where
  mk ::
  buckets : Buckets
  allTokens : Store AllVal

/-- The per-theme body of `buildGroupedTokens` applied to one effective
map. -/
def groupTheme (effective : Store Str) : Grouped :=
  Grouped.mk (categorize effective)
    (buildAll (categorize effective) (allProcessedTokens effective))

/-- `const effective = { ...rootVars, ...overrides }` (line 144). -/
def effectiveMap (rootVars overrides : Store Str) : Store Str :=
  assignStore rootVars overrides

/-- The key under which the single shared map object of `parseTokensCSS`
holds the base map: `map = \x7b root: \x7b\x7d \x7d`, so `map.root` and a
theme named `root` are the same entry. -/
def rootKey : Str := toStr "root"

/-- `map.root`: the base map of the shared parse store. -/
def rootMapOf (m : Store (Store Str)) : Store Str :=
  (lookupStore m rootKey).getD emptyStore

def availableThemes : List Str :=
  [toStr "light", toStr "dark", toStr "highcontrast-light",
   toStr "highcontrast-dark"]

/-- `buildGroupedTokens(rawMap)`: one grouped structure per available theme,
each over the theme's effective map (`rawMap.root` and `rawMap[theme]` read
the one shared map object). -/
def buildGroupedTokens (rawMap : Store (Store Str)) : Store Grouped :=
  availableThemes.foldl (fun g theme =>
    insertStore g theme
      (groupTheme (effectiveMap (rootMapOf rawMap)
        ((lookupStore rawMap theme).getD emptyStore)))) emptyStore

/-- In how many category/subcategory slots the name appears. -/
def countBuckets (g : Grouped) (n : Str) : Nat :=
  bucketList.countP (fun b => containsKey (g.buckets b) n)

def quoteChar : Char := Char.ofNat 39

/-- Splits at the first occurrence of the character: what precedes it and
what follows it. -/
def splitAtChar (target : Char) : Str → Option (Str × Str)
  | [] => none
  | c :: rest =>
    if c = target then some ([], rest)
    else
      match splitAtChar target rest with
      | some (a, b) => some (c :: a, b)
      | none => none

/-- The suffix after the first comment closer, if any. -/
def dropClose : Str → Option Str
  | [] => none
  | '*' :: '/' :: r => some r
  | _ :: r => dropClose r

/-- The suffix after the first comment closer reached without crossing a
line break (the dot of the lazy value-cleanup regex does not match
newlines). -/
def dropCloseNoNl : Str → Option Str
  | [] => none
  | '*' :: '/' :: r => some r
  | c :: r => if c = '\n' ∨ c = '\x0d' then none else dropCloseNoNl r

/-- Global removal of lazy block comments (the first normalization step of
`parseCSSVarBlock`); an unclosed opener stays verbatim, as the regex then
has no match. -/
def stripCommentsF : Nat → Str → Str
  | 0, s => s
  | _ + 1, [] => []
  | fuel + 1, '/' :: '*' :: rest =>
    (match dropClose rest with
     | some r => stripCommentsF fuel r
     | none => '/' :: stripCommentsF fuel ('*' :: rest))
  | fuel + 1, c :: rest => c :: stripCommentsF fuel rest

/-- Global removal of lazy block comments with each comment replaced by one
space (the sanitization step of the palette app's `parseVarBlock`). -/
def stripCommentsSpaceF : Nat → Str → Str
  | 0, s => s
  | _ + 1, [] => []
  | fuel + 1, '/' :: '*' :: rest =>
    (match dropClose rest with
     | some r => ' ' :: stripCommentsSpaceF fuel r
     | none => '/' :: stripCommentsSpaceF fuel ('*' :: rest))
  | fuel + 1, c :: rest => c :: stripCommentsSpaceF fuel rest

/-- Index of the last newline in a run of whitespace, if any. -/
def lastNlIdx (run : Str) : Option Nat :=
  match run.reverse.findIdx? (fun c => c = '\n') with
  | some i => some (run.length - 1 - i)
  | none => none

/-- Index of the last newline or carriage return in a run, if any. -/
def lastNlCrIdx (run : Str) : Option Nat :=
  match run.reverse.findIdx? (fun c => c = '\n' || c = '\x0d') with
  | some i => some (run.length - 1 - i)
  | none => none

/-- Global replacement of a newline, whitespace, newline sequence by one
newline (the empty-line removal of `parseCSSVarBlock`); the greedy
whitespace backtracks to the last newline of the run. -/
def collapseEmptyF : Nat → Str → Str
  | 0, s => s
  | _ + 1, [] => []
  | fuel + 1, c :: rest =>
    if c = '\n' then
      let run := rest.takeWhile isWsJS
      match lastNlIdx run with
      | some k => '\n' :: collapseEmptyF fuel (rest.drop (k + 1))
      | none => '\n' :: collapseEmptyF fuel rest
    else c :: collapseEmptyF fuel rest

/-- `normalizedBlock`: comments stripped, empty lines collapsed, ends
trimmed. -/
def normalizeBlock (block : Str) : Str :=
  jsTrim (collapseEmptyF (block.length + 1) (stripCommentsF (block.length + 1) block))

/-- Removal of residual comments from a captured value (dot excludes
newlines); after `stripCommentsF` this can no longer fire, but the code
performs it, so the model keeps it. -/
def valueCleanF : Nat → Str → Str
  | 0, s => s
  | _ + 1, [] => []
  | fuel + 1, '/' :: '*' :: rest =>
    (match dropCloseNoNl rest with
     | some r => valueCleanF fuel r
     | none => '/' :: valueCleanF fuel ('*' :: rest))
  | fuel + 1, c :: rest => c :: valueCleanF fuel rest

/-- The word-or-dash class of the declaration name group. -/
def isWordDash (c : Char) : Bool := c.isAlphanum || c = '_' || c = '-'

/-- A match of the primary declaration pattern (double dash, name run,
optional whitespace, colon, value run, semicolon) anchored at the start of
the suffix: the name run, the raw value run, and the suffix after the
semicolon. -/
def matchDeclAt (s : Str) : Option ((Str × Str) × Str) :=
  match s with
  | '-' :: '-' :: rest =>
    let nameRun := rest.takeWhile isWordDash
    if nameRun = [] then none
    else
      match (rest.drop nameRun.length).dropWhile isWsJS with
      | ':' :: afterColon =>
        (match splitAtChar ';' afterColon with
         | some (raw, suffix) => if raw = [] then none else some ((nameRun, raw), suffix)
         | none => none)
      | _ => none
  | _ => none

/-- All matches of the primary declaration pattern, scanning left to right
and resuming after each match. -/
def scanDeclsF : Nat → Str → List (Str × Str)
  | 0, _ => []
  | _ + 1, [] => []
  | fuel + 1, s@(_ :: tail) =>
    match matchDeclAt s with
    | some (pair, suffix) => pair :: scanDeclsF fuel suffix
    | none => scanDeclsF fuel tail

/-- The name/value pairs the primary pass of `parseCSSVarBlock` stores: the
name re-prefixed with the double dash, the value trimmed and cleaned, pairs
with an empty value dropped (the `if (name && value)` guard). -/
def primaryPairs (nb : Str) : List (Str × Str) :=
  (scanDeclsF (nb.length + 1) nb).filterMap (fun p =>
    let value := jsTrim (valueCleanF ((jsTrim p.2).length + 1) (jsTrim p.2))
    if value = [] then none else some ('-' :: '-' :: jsTrim p.1, value))

/-- The fallback split of `parseCSSVarBlock`: fragments separated at a
semicolon followed (through whitespace) by a line end, the end of input, or
a double dash. -/
def splitFallbackF : Nat → Str → Str → List Str
  | 0, s, acc => [acc.reverse ++ s]
  | _ + 1, [], acc => [acc.reverse]
  | fuel + 1, c :: rest, acc =>
    if c = ';' then
      let run := rest.takeWhile isWsJS
      let afterRun := rest.drop run.length
      if afterRun = [] then acc.reverse :: splitFallbackF fuel afterRun []
      else
        match lastNlCrIdx run with
        | some k => acc.reverse :: splitFallbackF fuel (rest.drop k) []
        | none =>
          if strStarts afterRun (toStr "--") then
            acc.reverse :: splitFallbackF fuel afterRun []
          else splitFallbackF fuel rest (c :: acc)
    else splitFallbackF fuel rest (c :: acc)

/-- The pairs the fallback pass of `parseCSSVarBlock` stores: trimmed lines
that carry the double dash, split at the first colon, both sides trimmed,
empty names or values dropped. -/
def fallbackPairs (nb : Str) : List (Str × Str) :=
  (splitFallbackF (nb.length + 1) nb []).filterMap (fun rawLine =>
    let line := jsTrim rawLine
    if strStarts line (toStr "--") then
      match splitAtChar ':' line with
      | some (before, after) =>
        let name := jsTrim before
        let value := jsTrim after
        if name = [] ∨ value = [] then none else some (name, value)
      | none => none
    else none)

/-- The number of declarations the primary regex pass stores
(`regexMatches`). -/
def regexMatchCount (nb : Str) : Nat := (primaryPairs nb).length

/-- `parseCSSVarBlock(block)` of TokenExplorerTool.js: the primary regex
pass, then, when it stored fewer than 500 declarations, the fallback
line-oriented pass written over the same map. -/
def parseCSSVarBlock (block : Str) : Store Str :=
  let nb := normalizeBlock block
  let vars := assignStore emptyStore (primaryPairs nb)
  if regexMatchCount nb < 500 then assignStore vars (fallbackPairs nb)
  else vars

/-- `parseVarBlock(block)` of PalettesExplorerApp.js: comments replaced by
spaces, then the declaration pattern applied with no empty-value guard and
no fallback. -/
def parseVarBlock (block : Str) : Store Str :=
  let sanitized := stripCommentsSpaceF (block.length + 1) block
  assignStore emptyStore
    ((scanDeclsF (sanitized.length + 1) sanitized).map (fun p =>
      ('-' :: '-' :: jsTrim p.1, jsTrim p.2)))

/-- The content between the first opening brace of the suffix and its
depth-matching closer (`extractBlockAt`); empty when braces never close. -/
def scanBlock : Str → Nat → Str → Str
  | [], _, _ => []
  | c :: rest, depth, acc =>
    if c = '{' then scanBlock rest (depth + 1) (c :: acc)
    else if c = '}' then
      if depth = 1 then acc.reverse else scanBlock rest (depth - 1) (c :: acc)
    else scanBlock rest depth (c :: acc)

def extractBlockAtSuffix (s : Str) : Str :=
  match s.dropWhile (fun c => c ≠ '{') with
  | [] => []
  | _ :: rest => scanBlock rest 1 []

/-- A match of the root-selector pattern (colon-root, whitespace, opening
brace) anchored at the suffix start: the suffix just after the brace. -/
def matchRootSel (s : Str) : Option Str :=
  if strStarts s (toStr ":root") then
    match (s.drop 5).dropWhile isWsJS with
    | '{' :: rest => some rest
    | _ => none
  else none

/-- Every root block body, in encounter order, each extracted depth-aware
from its match position; scanning resumes after each opening brace as the
global regex does. -/
def rootBlocksF : Nat → Str → List Str
  | 0, _ => []
  | _ + 1, [] => []
  | fuel + 1, s@(_ :: tail) =>
    match matchRootSel s with
    | some afterBrace => scanBlock afterBrace 1 [] :: rootBlocksF fuel afterBrace
    | none => rootBlocksF fuel tail

def rootBlocks (css : Str) : List Str := rootBlocksF (css.length + 1) css

/-- A match of the theme-discriminator attribute pattern anchored at the
suffix start: the raw capture and the suffix after the closing bracket. -/
def matchThemeSel (s : Str) : Option (Str × Str) :=
  if strStarts s (toStr "[data-theme=") then
    let afterEq := s.drop 12
    let run := afterEq.takeWhile (fun c => c ≠ ']')
    if run = [] then none
    else
      match afterEq.drop run.length with
      | ']' :: rest => some (run, rest)
      | _ => none
  else none

/-- Every theme-discriminator match, in order: the raw capture and the
suffix beginning at the match position (from which the block is
extracted). -/
def themeMatchesF : Nat → Str → List (Str × Str)
  | 0, _ => []
  | _ + 1, [] => []
  | fuel + 1, s@(_ :: tail) =>
    match matchThemeSel s with
    | some (run, rest) => (run, s) :: themeMatchesF fuel rest
    | none => themeMatchesF fuel tail

def themeMatches (css : Str) : List (Str × Str) := themeMatchesF (css.length + 1) css

/-- The raw capture with every apostrophe and double quote removed, then
trimmed. -/
def cleanThemeName (raw : Str) : Str :=
  jsTrim (raw.filter (fun c => !(c = quoteChar || c = '"')))

/-- The theme loop of `parseTokensCSS`: each discriminator match is cleaned,
matches whose name is empty or already seen are skipped, and the block at
the first occurrence of each name is parsed into that theme's map. -/
def themeLoop : List (Str × Str) → List Str → Store (Store Str) → Store (Store Str)
  | [], _, m => m
  | (raw, suf) :: rest, seen, m =>
    let rawName := cleanThemeName raw
    if rawName = [] ∨ rawName ∈ seen then themeLoop rest seen m
    else
      let content := extractBlockAtSuffix suf
      if content = [] then themeLoop rest (rawName :: seen) m
      else
        themeLoop rest (rawName :: seen)
          (insertStore m rawName
            (assignStore ((lookupStore m rawName).getD emptyStore)
              (parseCSSVarBlock content)))

def probeName : Str := toStr "--prism-color-chart-accent-primary-figure-default"

/-- A match of the probe-line pattern (probe name, whitespace, colon,
whitespace, value, semicolon) anchored at the suffix start: the trimmed
capture. -/
def matchProbeAt (s : Str) : Option Str :=
  if strStarts s probeName then
    match (s.drop probeName.length).dropWhile isWsJS with
    | ':' :: afterColon =>
      (match splitAtChar ';' afterColon with
       | some (raw, _) => if raw = [] then none else some (jsTrim raw)
       | none => none)
    | _ => none
  else none

def probeDeclF : Nat → Str → Option Str
  | 0, _ => none
  | _ + 1, [] => none
  | fuel + 1, s@(_ :: tail) =>
    match matchProbeAt s with
    | some v => some v
    | none => probeDeclF fuel tail

/-- The shared map after the root-block collection loop of
`parseTokensCSS`: the initial store is `\x7b root: \x7b\x7d \x7d`, and every
root block body is parsed and merged into `map.root` in encounter order,
empty bodies skipped. -/
def parseRootMapBase (css : Str) : Store (Store Str) :=
  [(rootKey, (rootBlocks css).foldl (fun m b =>
    if b = [] then m else assignStore m (parseCSSVarBlock b)) emptyStore)]

/-- The single-line probe fallback of `parseTokensCSS`, run on the shared
map after the theme loop: when the probe variable is missing from
`map.root` but its declaration text is present, the probe line's value is
written into `map.root`. -/
def probeFix (css : Str) (m : Store (Store Str)) : Store (Store Str) :=
  if containsKey (rootMapOf m) probeName = false ∧
      strIncl css (probeName ++ [':']) = true then
    match probeDeclF (css.length + 1) css with
    | some v => insertStore m rootKey (insertStore (rootMapOf m) probeName v)
    | none => m
  else m

/-- `parseTokensCSS(cssText)` of TokenExplorerTool.js: one shared map
`\x7b root: \x7b\x7d \x7d`; the root loop merges every root block into
`map.root`, then the theme loop writes each first-seen discriminator name
into `map[rawName]` — so a `[data-theme=root]` block merges into the base
map itself — and finally the probe fallback fills `map.root`.
(Discriminator names that are `Object.prototype` property names, such as
`toString`, hit the JS prototype chain; like the parser's ASCII scoping,
such stylesheets are outside this embedding's scope.) -/
def parseTokensCSS (css : Str) : Store (Store Str) :=
  probeFix css (themeLoop (themeMatches css) [] (parseRootMapBase css))

/-- A match of the palette app's root pattern (colon-root, whitespace,
opening brace, lazy body, closing brace) anchored at the suffix start: the
body up to the first closing brace. -/
def matchPalRootAt (s : Str) : Option Str :=
  if strStarts s (toStr ":root") then
    match (s.drop 5).dropWhile isWsJS with
    | '{' :: rest =>
      (match splitAtChar '}' rest with
       | some (content, _) => some content
       | none => none)
    | _ => none
  else none

def palRootBlockF : Nat → Str → Option Str
  | 0, _ => none
  | _ + 1, [] => none
  | fuel + 1, s@(_ :: tail) =>
    match matchPalRootAt s with
    | some content => some content
    | none => palRootBlockF fuel tail

/-- The first root block body of `extractCSSVars`: a non-global,
non-depth-aware lazy match. -/
def palettesRootBlock (css : Str) : Option Str := palRootBlockF (css.length + 1) css

/-- The theme-override selector the palette app builds:
colon-root, bracket, data-theme discriminator with the quoted theme name. -/
def palThemeSelector (theme : Str) : Str :=
  toStr ":root[data-theme=" ++ [quoteChar] ++ theme ++ [quoteChar, ']']

/-- A match of the palette app's theme-override pattern anchored at the
suffix start.  The template literal building the regex leaves the body
class as the two letters s and S instead of the any-character class, so the
lazy body only crosses those letters: the block matches only when
everything between its braces is such a letter run. -/
def matchPalThemeAt (theme : Str) (s : Str) : Option (Str × Str) :=
  let sel := palThemeSelector theme
  if strStarts s sel then
    match (s.drop sel.length).dropWhile isWsJS with
    | '{' :: rest =>
      let run := rest.takeWhile (fun c => c = 's' || c = 'S')
      (match rest.drop run.length with
       | '}' :: suffix => some (run, suffix)
       | _ => none)
    | _ => none
  else none

def palThemeOverridesF (theme : Str) : Nat → Str → Store Str → Store Str
  | 0, _, m => m
  | _ + 1, [], m => m
  | fuel + 1, s@(_ :: tail), m =>
    match matchPalThemeAt theme s with
    | some (content, suffix) =>
      palThemeOverridesF theme fuel suffix (assignStore m (parseVarBlock content))
    | none => palThemeOverridesF theme fuel tail m

structure ExtractResult where
  mk ::
  rootVars : Store Str
  overrides : Store Str

/-- `extractCSSVars(cssText, theme)` of PalettesExplorerApp.js. -/
def extractCSSVars (css theme : Str) : ExtractResult :=
  let rootVars :=
    match palettesRootBlock css with
    | some content => assignStore emptyStore (parseVarBlock content)
    | none => emptyStore
  let ovr :=
    if theme = toStr "light" then emptyStore
    else palThemeOverridesF theme (css.length + 1) css emptyStore
  ExtractResult.mk rootVars ovr

structure PaletteDescriptors where
  mk ::
  general : List Row
  alpha : List Row
  chart : List Row

/-- `parsePaletteDescriptors(cssText)`: the three palette sets built from
the base-theme variables. -/
def parsePaletteDescriptors (cssText : Str) : PaletteDescriptors :=
  PaletteDescriptors.mk
    (buildGeneralPalettes (extractCSSVars cssText (toStr "light")).rootVars)
    (buildAlphaPalettes (extractCSSVars cssText (toStr "light")).rootVars)
    (buildChartPalettes (extractCSSVars cssText (toStr "light")).rootVars)

theorem lookup_eq_none_iff {α : Type} (m : Store α) (k : Str) :
    lookupStore m k = none ↔ containsKey m k = false := by
  induction m with
  | nil => simp [lookupStore, containsKey]
  | cons p rest ih =>
    rw [containsKey_cons]
    by_cases hp : p.1 = k
    · simp [lookupStore, hp]
    · simp [lookupStore, hp, ih]

theorem lookup_mem {α : Type} (m : Store α) (k : Str) (v : α)
    (h : lookupStore m k = some v) : (k, v) ∈ m := by
  induction m with
  | nil => exact Option.noConfusion h
  | cons p rest ih =>
    unfold lookupStore at h
    by_cases hp : p.1 = k
    · rw [if_pos hp] at h
      have hv : p.2 = v := Option.some.inj h
      exact List.mem_cons.mpr (Or.inl (by rw [← hp, ← hv]))
    · rw [if_neg hp] at h
      exact List.mem_cons_of_mem _ (ih h)

theorem containsKey_reverse {α : Type} (m : Store α) (k : Str) :
    containsKey m.reverse k = containsKey m k := by
  cases h : containsKey m k with
  | true =>
    rcases (containsKey_iff _ _).mp h with ⟨v, hv⟩
    exact (containsKey_iff _ _).mpr ⟨v, List.mem_reverse.mpr hv⟩
  | false =>
    cases hr : containsKey m.reverse k with
    | false => rfl
    | true =>
      rcases (containsKey_iff _ _).mp hr with ⟨v, hv⟩
      rw [List.mem_reverse] at hv
      have hck : containsKey m k = true := (containsKey_iff _ _).mpr ⟨v, hv⟩
      rw [h] at hck
      exact Bool.noConfusion hck

/-- With no duplicate keys, forward and last-write lookup agree. -/
theorem lastLookup_eq_lookup {α : Type} (m : Store α) (k : Str)
    (hnd : nodupKeys m) : lastLookup m k = lookupStore m k := by
  induction m with
  | nil => rfl
  | cons p rest ih =>
    unfold nodupKeys storeKeys at hnd
    simp only [List.map_cons, List.nodup_cons] at hnd
    unfold lastLookup at ih ⊢
    simp only [List.reverse_cons]
    rw [lookup_append]
    by_cases hp : p.1 = k
    · have hcf : containsKey rest k = false := by
        cases hc : containsKey rest k with
        | false => rfl
        | true =>
          rcases (containsKey_iff _ _).mp hc with ⟨v, hv⟩
          exact absurd (List.mem_map.mpr ⟨(k, v), hv, hp.symm ▸ rfl⟩) hnd.1
      have hnone : lookupStore rest.reverse k = none := by
        rw [lookup_eq_none_iff, containsKey_reverse]
        exact hcf
      rw [hnone]
      simp [lookupStore, hp]
    · have hrev : lookupStore rest.reverse k = lookupStore rest k := ih hnd.2
      rw [hrev]
      cases hr : lookupStore rest k with
      | some v => simp [lookupStore, hp, hr]
      | none => simp [lookupStore, hp, hr]

theorem mem_insertStore {α : Type} {m : Store α} {k : Str} {v : α} {q : Str × α}
    (h : q ∈ insertStore m k v) : q ∈ m ∨ q = (k, v) := by
  unfold insertStore at h
  by_cases hc : containsKey m k = true
  · rw [if_pos hc] at h
    rcases List.mem_map.mp h with ⟨p, hp, hq⟩
    unfold updEntry at hq
    by_cases hpk : p.1 = k
    · rw [if_pos hpk] at hq
      exact Or.inr hq.symm
    · rw [if_neg hpk] at hq
      exact Or.inl (hq ▸ hp)
  · rw [if_neg hc] at h
    rcases List.mem_append.mp h with h | h
    · exact Or.inl h
    · exact Or.inr (List.mem_singleton.mp h)

theorem nodupKeys_assign {α : Type} (m src : Store α) (h : nodupKeys m) :
    nodupKeys (assignStore m src) := by
  induction src generalizing m with
  | nil => exact h
  | cons p rest ih =>
    have hstep : assignStore m (p :: rest) = assignStore (insertStore m p.1 p.2) rest := by
      simp [assignStore]
    rw [hstep]
    exact ih _ (nodupKeys_insert m p.1 p.2 h)

theorem assign_disjoint_append {α : Type} (src : Store α) :
    ∀ m : Store α, (∀ k, containsKey src k = true → containsKey m k = false) →
    nodupKeys src → assignStore m src = m ++ src := by
  induction src with
  | nil => intro m _ _; simp [assignStore]
  | cons p rest ih =>
    intro m hdis hnd
    have hstep : assignStore m (p :: rest) = assignStore (insertStore m p.1 p.2) rest := by
      simp [assignStore]
    have hmp : containsKey m p.1 = false := hdis p.1 (containsKey_of_head rfl)
    have hins : insertStore m p.1 p.2 = m ++ [p] := by
      unfold insertStore
      rw [hmp]
      simp
    unfold nodupKeys storeKeys at hnd
    simp only [List.map_cons, List.nodup_cons] at hnd
    have hdis2 : ∀ k, containsKey rest k = true → containsKey (m ++ [p]) k = false := by
      intro k hk
      cases hc : containsKey (m ++ [p]) k with
      | false => rfl
      | true =>
        rcases (containsKey_iff _ _).mp hc with ⟨v, hv⟩
        rcases List.mem_append.mp hv with hv | hv
        · have hmk : containsKey m k = false := hdis k (containsKey_of_tail hk)
          exact absurd ((containsKey_iff _ _).mpr ⟨v, hv⟩)
            (by rw [hmk]; exact Bool.false_ne_true)
        · have hpk : (k, v) = p := List.mem_singleton.mp hv
          rcases (containsKey_iff _ _).mp hk with ⟨w, hw⟩
          refine absurd (List.mem_map.mpr ⟨(k, w), hw, ?_⟩) hnd.1
          rw [← hpk]
    rw [hstep, hins, ih (m ++ [p]) hdis2 hnd.2]
    simp

theorem assign_empty_eq {α : Type} (src : Store α) (hnd : nodupKeys src) :
    assignStore emptyStore src = src := by
  have := assign_disjoint_append src emptyStore (fun k _ => rfl) hnd
  simpa [emptyStore] using this

/-- A predicate satisfied by at most one element of a duplicate-free list is
counted at most once. -/
theorem countP_le_one_of_unique {α : Type} (l : List α) (p : α → Bool)
    (hnd : l.Nodup)
    (huniq : ∀ a b, a ∈ l → b ∈ l → p a = true → p b = true → a = b) :
    l.countP p ≤ 1 := by
  induction l with
  | nil => simp
  | cons x xs ih =>
    rw [List.countP_cons]
    rcases List.nodup_cons.mp hnd with ⟨hx, hxs⟩
    by_cases hp : p x = true
    · have hz : xs.countP p = 0 := by
        rw [List.countP_eq_zero]
        intro a ha
        cases hpa : p a with
        | false =>
          intro hh
          exact Bool.noConfusion hh
        | true =>
          intro _
          have : a = x := huniq a x (List.mem_cons_of_mem _ ha) (List.mem_cons_self x xs) hpa hp
          exact absurd (this ▸ ha) hx
      rw [hz, hp]
      simp
    · have hle : xs.countP p ≤ 1 :=
        ih hxs (fun a b ha hb hpa hpb =>
          huniq a b (List.mem_cons_of_mem _ ha) (List.mem_cons_of_mem _ hb) hpa hpb)
      simp only [hp]
      simpa using hle

/-- C4: for every base map and theme override map, in the effective map the
token classifier computes, every property with an override entry maps to
the override value, and every property absent from the override maps to its
base value. -/
theorem effective_override_precedence (base overrides : Store Str) (p : Str)
    (hnd : nodupKeys overrides) :
    (∀ v, lookupStore overrides p = some v →
      lookupStore (effectiveMap base overrides) p = some v) ∧
    (lookupStore overrides p = none →
      lookupStore (effectiveMap base overrides) p = lookupStore base p) := by
  constructor
  · intro v hv
    have h := lookup_assign base overrides p
    rw [lastLookup_eq_lookup overrides p hnd, hv] at h
    exact h
  · intro hv
    have h := lookup_assign base overrides p
    rw [lastLookup_eq_lookup overrides p hnd, hv] at h
    exact h

/-- Concrete instance of C4 on spec scenario 8: a dark override of the
spacing token wins, an unoverridden token keeps its base value. -/
theorem effective_override_precedence_witness :
    lookupStore (effectiveMap
        [(toStr "--prism-spacing-sm", toStr "4px"), (toStr "--x", toStr "1")]
        [(toStr "--prism-spacing-sm", toStr "6px")])
      (toStr "--prism-spacing-sm") = some (toStr "6px") ∧
    lookupStore (effectiveMap
        [(toStr "--prism-spacing-sm", toStr "4px"), (toStr "--x", toStr "1")]
        [(toStr "--prism-spacing-sm", toStr "6px")])
      (toStr "--x") = some (toStr "1") := by
  constructor
  · exact (effective_override_precedence
      [(toStr "--prism-spacing-sm", toStr "4px"), (toStr "--x", toStr "1")]
      [(toStr "--prism-spacing-sm", toStr "6px")]
      (toStr "--prism-spacing-sm") (by decide)).1 (toStr "6px") (by decide)
  · rw [(effective_override_precedence
      [(toStr "--prism-spacing-sm", toStr "4px"), (toStr "--x", toStr "1")]
      [(toStr "--prism-spacing-sm", toStr "6px")]
      (toStr "--x") (by decide)).2 (by decide)]
    decide

theorem addToBuckets_none {bs : Buckets} {n v : Str} (hcl : classify n = none) :
    addToBuckets bs n v = bs := by
  unfold addToBuckets
  rw [hcl]

theorem addToBuckets_some {bs : Buckets} {n v : Str} {c : Bucket}
    (hcl : classify n = some c) :
    addToBuckets bs n v =
      fun b => if b = c then insertStore (bs c) n (mkToken n v) else bs b := by
  unfold addToBuckets
  rw [hcl]

/-- The fold step of `categorize`. -/
def categorizeStep (bs : Buckets) (p : Str × Str) : Buckets :=
  if strStarts p.1 (toStr "--") then addToBuckets bs p.1 p.2 else bs

theorem categorize_eq_foldl (eff : Store Str) :
    categorize eff = eff.foldl categorizeStep (fun _ => emptyStore) := rfl

theorem containsKey_categorizeStep {bs : Buckets} {p : Str × Str} {b : Bucket}
    {n : Str} (h : containsKey ((categorizeStep bs p) b) n = true) :
    containsKey (bs b) n = true ∨
      (classify n = some b ∧ strStarts n (toStr "--") = true) := by
  unfold categorizeStep at h
  by_cases hdd : strStarts p.1 (toStr "--") = true
  · rw [if_pos hdd] at h
    cases hcl : classify p.1 with
    | none =>
      rw [addToBuckets_none hcl] at h
      exact Or.inl h
    | some c =>
      rw [addToBuckets_some hcl] at h
      simp only [] at h
      by_cases hbc : b = c
      · rw [if_pos hbc] at h
        rcases (containsKey_insert _ _ _ _).mp h with rfl | h
        · exact Or.inr ⟨by rw [hcl, hbc], hdd⟩
        · exact Or.inl (hbc ▸ h)
      · rw [if_neg hbc] at h
        exact Or.inl h
  · rw [if_neg hdd] at h
    exact Or.inl h

theorem containsKey_categorizeStep_mono {bs : Buckets} {p : Str × Str}
    {b : Bucket} {n : Str} (h : containsKey (bs b) n = true) :
    containsKey ((categorizeStep bs p) b) n = true := by
  unfold categorizeStep
  by_cases hdd : strStarts p.1 (toStr "--") = true
  · rw [if_pos hdd]
    cases hcl : classify p.1 with
    | none =>
      rw [addToBuckets_none hcl]
      exact h
    | some c =>
      rw [addToBuckets_some hcl]
      simp only []
      by_cases hbc : b = c
      · rw [if_pos hbc]
        subst hbc
        exact (containsKey_insert _ _ _ _).mpr (Or.inr h)
      · rw [if_neg hbc]
        exact h
  · rw [if_neg hdd]
    exact h

theorem containsKey_categorize_foldl (eff : Store Str) :
    ∀ (bs : Buckets) (b : Bucket) (n : Str),
    containsKey ((eff.foldl categorizeStep bs) b) n = true →
    containsKey (bs b) n = true ∨
      (classify n = some b ∧ strStarts n (toStr "--") = true) := by
  induction eff with
  | nil => intro bs b n h; exact Or.inl h
  | cons p rest ih =>
    intro bs b n h
    rw [List.foldl_cons] at h
    rcases ih (categorizeStep bs p) b n h with h | h
    · exact containsKey_categorizeStep h
    · exact Or.inr h

/-- A name present in a category/subcategory slot classifies to that slot
and carries the double-dash sentinel. -/
theorem containsKey_categorize (eff : Store Str) (b : Bucket) (n : Str)
    (h : containsKey ((categorize eff) b) n = true) :
    classify n = some b ∧ strStarts n (toStr "--") = true := by
  rw [categorize_eq_foldl] at h
  rcases containsKey_categorize_foldl eff _ b n h with h | h
  · exact Bool.noConfusion (show false = true from h)
  · exact h

theorem containsKey_categorize_foldl_mono (eff : Store Str) :
    ∀ (bs : Buckets) (b : Bucket) (n : Str),
    containsKey (bs b) n = true →
    containsKey ((eff.foldl categorizeStep bs) b) n = true := by
  induction eff with
  | nil => intro bs b n h; exact h
  | cons p rest ih =>
    intro bs b n h
    rw [List.foldl_cons]
    exact ih _ b n (containsKey_categorizeStep_mono h)

theorem containsKey_categorizeStep_self {bs : Buckets} {n v : Str} {b : Bucket}
    (hcl : classify n = some b) (hdd : strStarts n (toStr "--") = true) :
    containsKey ((categorizeStep bs (n, v)) b) n = true := by
  unfold categorizeStep
  rw [if_pos hdd]
  rw [addToBuckets_some (show classify (n, v).1 = some b from hcl)]
  simp only [if_true]
  exact (containsKey_insert _ _ _ _).mpr (Or.inl rfl)

/-- A double-dash entry of the effective map whose name classifies to a
slot is present in that slot. -/
theorem containsKey_categorize_complete (eff : Store Str) (n v : Str) (b : Bucket)
    (hmem : (n, v) ∈ eff) (hcl : classify n = some b)
    (hdd : strStarts n (toStr "--") = true) :
    containsKey ((categorize eff) b) n = true := by
  rw [categorize_eq_foldl]
  have main : ∀ (l : Store Str) (bs : Buckets), (n, v) ∈ l →
      containsKey ((l.foldl categorizeStep bs) b) n = true := by
    intro l
    induction l with
    | nil => intro bs h; exact absurd h (by simp)
    | cons p rest ih =>
      intro bs h
      rw [List.foldl_cons]
      rcases List.mem_cons.mp h with h | h
      · rw [← h]
        exact containsKey_categorize_foldl_mono rest _ b n
          (containsKey_categorizeStep_self hcl hdd)
      · exact ih _ h
  exact main eff _ hmem

theorem classify_chart_iff (n : Str) :
    classify n = some Bucket.colChart ↔
      strStarts n (toStr "--prism-color-chart-") = true ∧
      strStarts n (toStr "--prism-color-chart-categorical-") = false ∧
      strStarts n (toStr "--prism-color-chart-sequential-") = false := by
  have hpc : strStarts n (toStr "--prism-color-chart-") = true →
      strStarts n (toStr "--prism-color-") = true := by
    intro h
    have heq : toStr "--prism-color-chart-" = toStr "--prism-color-" ++ toStr "chart-" := by
      decide
    exact strStarts_of_append n _ _ (heq ▸ h)
  constructor
  · intro hcl
    unfold classify at hcl
    by_cases h1 : strStarts n (toStr "--prism-color-") = true
    · rw [if_pos h1] at hcl
      by_cases h2 : strStarts n (toStr "--prism-color-chart-") = true
      · rw [if_pos h2] at hcl
        by_cases h34 : strStarts n (toStr "--prism-color-chart-categorical-") = false ∧
            strStarts n (toStr "--prism-color-chart-sequential-") = false
        · exact ⟨h2, h34.1, h34.2⟩
        · rw [if_neg h34] at hcl
          exact Option.noConfusion hcl
      · rw [if_neg h2] at hcl
        exfalso
        revert hcl
        split_ifs <;> simp
    · rw [if_neg h1] at hcl
      exfalso
      revert hcl
      split_ifs <;> simp
  · rintro ⟨h2, h3, h4⟩
    unfold classify
    rw [if_pos (hpc h2), if_pos h2, if_pos ⟨h3, h4⟩]

/-- C5: a property named with the categorical or sequential chart-color
prefix never appears under Colors/Chart in the classifier output, and the
chart slot holds exactly the remaining chart-prefixed properties of the
effective map. -/
theorem chart_exclusion (eff : Store Str) (n : Str) :
    (containsKey ((groupTheme eff).buckets Bucket.colChart) n = true →
      strStarts n (toStr "--prism-color-chart-") = true ∧
      strStarts n (toStr "--prism-color-chart-categorical-") = false ∧
      strStarts n (toStr "--prism-color-chart-sequential-") = false) ∧
    (∀ v, (n, v) ∈ eff →
      strStarts n (toStr "--prism-color-chart-") = true →
      strStarts n (toStr "--prism-color-chart-categorical-") = false →
      strStarts n (toStr "--prism-color-chart-sequential-") = false →
      containsKey ((groupTheme eff).buckets Bucket.colChart) n = true) := by
  have hb : (groupTheme eff).buckets = categorize eff := rfl
  constructor
  · intro h
    rw [hb] at h
    exact (classify_chart_iff n).mp (containsKey_categorize eff _ n h).1
  · intro v hmem h2 h3 h4
    rw [hb]
    refine containsKey_categorize_complete eff n v _ hmem
      ((classify_chart_iff n).mpr ⟨h2, h3, h4⟩) ?_
    have heq : toStr "--prism-color-chart-" = toStr "--" ++ toStr "prism-color-chart-" := by
      decide
    exact strStarts_of_append n _ _ (heq ▸ h2)

/-- Concrete instance of C5, spec scenario 9: the alias chart color lands
in Colors/Chart while the categorical one classifies nowhere. -/
theorem chart_exclusion_witness :
    containsKey ((groupTheme
        [(toStr "--prism-color-chart-accent-primary-figure-default", toStr "red"),
         (toStr "--prism-color-chart-categorical-01", toStr "#fff")]).buckets
        Bucket.colChart)
      (toStr "--prism-color-chart-accent-primary-figure-default") = true ∧
    containsKey ((groupTheme
        [(toStr "--prism-color-chart-accent-primary-figure-default", toStr "red"),
         (toStr "--prism-color-chart-categorical-01", toStr "#fff")]).buckets
        Bucket.colChart)
      (toStr "--prism-color-chart-categorical-01") = false := by
  constructor
  · exact (chart_exclusion
      [(toStr "--prism-color-chart-accent-primary-figure-default", toStr "red"),
       (toStr "--prism-color-chart-categorical-01", toStr "#fff")]
      (toStr "--prism-color-chart-accent-primary-figure-default")).2
      (toStr "red") (by decide) (by decide) (by decide) (by decide)
  · decide

theorem mkToken_raw_eq_value (n v : Str) : (mkToken n v).raw = (mkToken n v).value := rfl

theorem categorize_entry_raw (eff : Store Str) :
    ∀ (bs : Buckets), (∀ b q, q ∈ bs b → (q : Str × Token).2.raw = q.2.value) →
    ∀ b q, q ∈ (eff.foldl categorizeStep bs) b → q.2.raw = q.2.value := by
  induction eff with
  | nil => intro bs hbs b q hq; exact hbs b q hq
  | cons p rest ih =>
    intro bs hbs b q hq
    rw [List.foldl_cons] at hq
    refine ih (categorizeStep bs p) ?_ b q hq
    intro b' q' hq'
    unfold categorizeStep at hq'
    by_cases hdd : strStarts p.1 (toStr "--") = true
    · rw [if_pos hdd] at hq'
      cases hcl : classify p.1 with
      | none =>
        rw [addToBuckets_none hcl] at hq'
        exact hbs b' q' hq'
      | some c =>
        rw [addToBuckets_some hcl] at hq'
        simp only [] at hq'
        by_cases hbc : b' = c
        · rw [if_pos hbc] at hq'
          rcases mem_insertStore hq' with hq' | hq'
          · exact hbs c q' hq'
          · rw [hq']
            exact mkToken_raw_eq_value p.1 p.2
        · rw [if_neg hbc] at hq'
          exact hbs b' q' hq'
    · rw [if_neg hdd] at hq'
      exact hbs b' q' hq'

theorem allProcessedTokens_raw (eff : Store Str) :
    ∀ q ∈ allProcessedTokens eff, (q : Str × Token).2.raw = q.2.value := by
  unfold allProcessedTokens
  suffices h : ∀ (m : Store Token), (∀ q ∈ m, (q : Str × Token).2.raw = q.2.value) →
      ∀ q ∈ eff.foldl (fun m p =>
        if strStarts p.1 (toStr "--") = true then insertStore m p.1 (mkToken p.1 p.2) else m) m,
      (q : Str × Token).2.raw = q.2.value by
    intro q hq
    refine h emptyStore (fun q hq => absurd hq (by simp [emptyStore])) q ?_
    simpa using hq
  induction eff with
  | nil => intro m hm q hq; exact hm q hq
  | cons p rest ih =>
    intro m hm q hq
    rw [List.foldl_cons] at hq
    refine ih _ ?_ q hq
    intro q' hq'
    by_cases hdd : strStarts p.1 (toStr "--") = true
    · rw [if_pos hdd] at hq'
      rcases mem_insertStore hq' with hq' | hq'
      · exact hm q' hq'
      · rw [hq']
        exact mkToken_raw_eq_value p.1 p.2
    · rw [if_neg hdd] at hq'
      exact hm q' hq'

/-- Invariant of the "All" construction: every token-valued entry has its
raw field equal to its value field. -/
def allInv (acc : Store AllVal) : Prop :=
  ∀ q ∈ acc, ∀ t : Token, (q : Str × AllVal).2 = Sum.inl t → t.raw = t.value

theorem allInv_insert_inl {acc : Store AllVal} {k : Str} {t : Token}
    (hacc : allInv acc) (ht : t.raw = t.value) :
    allInv (insertStore acc k (Sum.inl t)) := by
  intro q hq t' hqt
  rcases mem_insertStore hq with hq | hq
  · exact hacc q hq t' hqt
  · rw [hq] at hqt
    simp only [Sum.inl.injEq] at hqt
    exact hqt ▸ ht

theorem allInv_insert_inr {acc : Store AllVal} {k s : Str} (hacc : allInv acc) :
    allInv (insertStore acc k (Sum.inr s)) := by
  intro q hq t' hqt
  rcases mem_insertStore hq with hq | hq
  · exact hacc q hq t' hqt
  · rw [hq] at hqt
    exact Sum.noConfusion hqt

theorem allInv_insertBucketSorted {acc : Store AllVal} {bucket : Store Token}
    (hacc : allInv acc) (hb : ∀ q ∈ bucket, (q : Str × Token).2.raw = q.2.value) :
    allInv (insertBucketSorted acc bucket) := by
  unfold insertBucketSorted
  generalize sortJS lexLe (storeKeys bucket) = ks
  induction ks generalizing acc with
  | nil => exact hacc
  | cons k ks ih =>
    rw [List.foldl_cons]
    refine ih ?_
    cases hl : lookupStore bucket k with
    | none => exact hacc
    | some t =>
      exact allInv_insert_inl hacc (hb (k, t) (lookup_mem bucket k t hl))

theorem allInv_insertDirectCat {acc : Store AllVal} {bucket : Store Token}
    (hacc : allInv acc) : allInv (insertDirectCat acc bucket) := by
  unfold insertDirectCat
  induction bucket generalizing acc with
  | nil => exact hacc
  | cons p rest ih =>
    rw [List.foldl_cons]
    refine ih ?_
    generalize tokenFieldVals p.2 = fvs
    induction fvs generalizing acc with
    | nil => exact hacc
    | cons fv fvs ihf =>
      rw [List.foldl_cons]
      refine ihf ?_
      by_cases hne : fv.2 ≠ []
      · rw [if_pos hne]
        exact allInv_insert_inr hacc
      · rw [if_neg hne]
        exact hacc

theorem allInv_insertFallback {acc : Store AllVal} {ap : Store Token}
    (hacc : allInv acc) (hap : ∀ q ∈ ap, (q : Str × Token).2.raw = q.2.value) :
    allInv (insertFallback acc ap) := by
  unfold insertFallback
  induction ap generalizing acc with
  | nil => exact hacc
  | cons p rest ih =>
    rw [List.foldl_cons]
    refine ih ?_ (fun q hq => hap q (List.mem_cons_of_mem _ hq))
    by_cases hc : containsKey acc p.1 = true
    · rw [if_pos hc]
      exact hacc
    · rw [if_neg hc]
      exact allInv_insert_inl hacc (hap p (List.mem_cons_self _ _))

/-- C9: every token object in every category, subcategory, and the "All"
view has its raw field equal to its value field. -/
theorem raw_equals_value (eff : Store Str) :
    (∀ (b : Bucket) (k : Str) (t : Token),
      (k, t) ∈ (groupTheme eff).buckets b → t.raw = t.value) ∧
    (∀ (k : Str) (t : Token),
      (k, Sum.inl t) ∈ (groupTheme eff).allTokens → t.raw = t.value) := by
  have hbuckets : ∀ b q, q ∈ (categorize eff) b → (q : Str × Token).2.raw = q.2.value := by
    rw [categorize_eq_foldl]
    exact categorize_entry_raw eff _ (fun b q hq => absurd hq (by simp [emptyStore]))
  constructor
  · intro b k t hq
    exact hbuckets b (k, t) hq
  · intro k t hq
    have hall : allInv (groupTheme eff).allTokens := by
      show allInv (buildAll (categorize eff) (allProcessedTokens eff))
      unfold buildAll
      refine allInv_insertFallback ?_ (allProcessedTokens_raw eff)
      have hphase1 : allInv ((colorsSubOrder ++ gradientsSubOrder).foldl
          (fun acc b => insertBucketSorted acc ((categorize eff) b)) emptyStore) := by
        generalize colorsSubOrder ++ gradientsSubOrder = bl
        suffices hgen : ∀ (l : List Bucket) (acc : Store AllVal), allInv acc →
            allInv (l.foldl (fun acc b => insertBucketSorted acc ((categorize eff) b)) acc) by
          exact hgen bl emptyStore (fun q hq => absurd hq (by simp [emptyStore]))
        intro l
        induction l with
        | nil => intro acc hacc; exact hacc
        | cons b bl ih =>
          intro acc hacc
          rw [List.foldl_cons]
          exact ih _ (allInv_insertBucketSorted hacc (hbuckets b))
      suffices hgen : ∀ (l : List Bucket) (acc : Store AllVal), allInv acc →
          allInv (l.foldl (fun acc b => insertDirectCat acc ((categorize eff) b)) acc) by
        exact hgen directCatOrder _ hphase1
      intro l
      induction l with
      | nil => intro acc hacc; exact hacc
      | cons b bl ih =>
        intro acc hacc
        rw [List.foldl_cons]
        exact ih _ (allInv_insertDirectCat hacc)
    exact hall (k, Sum.inl t) hq t rfl

/-- Concrete instance of C9: the classified text-color token and the
fallback-appended chart token both carry raw equal to value. -/
theorem raw_equals_value_witness :
    (mkToken (toStr "--prism-color-text-primary") (toStr "#000")).raw =
      (mkToken (toStr "--prism-color-text-primary") (toStr "#000")).value ∧
    (toStr "--prism-color-text-primary",
        mkToken (toStr "--prism-color-text-primary") (toStr "#000")) ∈
      (groupTheme [(toStr "--prism-color-text-primary", toStr "#000")]).buckets
        Bucket.colText := by
  refine ⟨?_, by decide⟩
  exact (raw_equals_value [(toStr "--prism-color-text-primary", toStr "#000")]).1
    Bucket.colText (toStr "--prism-color-text-primary")
    (mkToken (toStr "--prism-color-text-primary") (toStr "#000")) (by decide)

theorem nodupKeys_insertBucketSorted {acc : Store AllVal} {bucket : Store Token}
    (hacc : nodupKeys acc) : nodupKeys (insertBucketSorted acc bucket) := by
  unfold insertBucketSorted
  generalize sortJS lexLe (storeKeys bucket) = ks
  induction ks generalizing acc with
  | nil => exact hacc
  | cons k ks ih =>
    rw [List.foldl_cons]
    refine ih ?_
    cases hl : lookupStore bucket k with
    | none => exact hacc
    | some t => exact nodupKeys_insert acc k _ hacc

theorem nodupKeys_insertDirectCat {acc : Store AllVal} {bucket : Store Token}
    (hacc : nodupKeys acc) : nodupKeys (insertDirectCat acc bucket) := by
  unfold insertDirectCat
  induction bucket generalizing acc with
  | nil => exact hacc
  | cons p rest ih =>
    rw [List.foldl_cons]
    refine ih ?_
    generalize tokenFieldVals p.2 = fvs
    induction fvs generalizing acc with
    | nil => exact hacc
    | cons fv fvs ihf =>
      rw [List.foldl_cons]
      refine ihf ?_
      by_cases hne : fv.2 ≠ []
      · rw [if_pos hne]
        exact nodupKeys_insert acc fv.1 _ hacc
      · rw [if_neg hne]
        exact hacc

theorem nodupKeys_insertFallback {acc : Store AllVal} {ap : Store Token}
    (hacc : nodupKeys acc) : nodupKeys (insertFallback acc ap) := by
  unfold insertFallback
  induction ap generalizing acc with
  | nil => exact hacc
  | cons p rest ih =>
    rw [List.foldl_cons]
    refine ih ?_
    by_cases hc : containsKey acc p.1 = true
    · rw [if_pos hc]
      exact hacc
    · rw [if_neg hc]
      exact nodupKeys_insert acc p.1 _ hacc

theorem containsKey_insertFallback_mono {ap : Store Token} {acc : Store AllVal}
    {n : Str} (h : containsKey acc n = true) :
    containsKey (insertFallback acc ap) n = true := by
  unfold insertFallback
  induction ap generalizing acc with
  | nil => exact h
  | cons p rest ih =>
    rw [List.foldl_cons]
    refine ih ?_
    by_cases hc : containsKey acc p.1 = true
    · rw [if_pos hc]
      exact h
    · rw [if_neg hc]
      exact (containsKey_insert _ _ _ _).mpr (Or.inr h)

theorem containsKey_insertFallback {ap : Store Token} {acc : Store AllVal}
    {n : Str} (h : containsKey ap n = true) :
    containsKey (insertFallback acc ap) n = true := by
  induction ap generalizing acc with
  | nil => exact Bool.noConfusion (show false = true from h)
  | cons p rest ih =>
    show containsKey ((p :: rest).foldl _ acc) n = true
    rw [List.foldl_cons]
    by_cases hp : p.1 = n
    · have hstep : containsKey
          (if containsKey acc p.1 = true then acc
           else insertStore acc p.1 (Sum.inl p.2)) n = true := by
        by_cases hc : containsKey acc p.1 = true
        · rw [if_pos hc]
          rw [← hp]
          exact hc
        · rw [if_neg hc]
          exact (containsKey_insert _ _ _ _).mpr (Or.inl hp.symm)
      exact containsKey_insertFallback_mono hstep
    · have hr : containsKey rest n = true := containsKey_cons_of_ne p rest n hp h
      exact ih hr

theorem containsKey_allProcessedTokens (eff : Store Str) (n v : Str)
    (hmem : (n, v) ∈ eff) (hdd : strStarts n (toStr "--") = true) :
    containsKey (allProcessedTokens eff) n = true := by
  unfold allProcessedTokens
  have hmono : ∀ (l : Store Str) (m : Store Token), containsKey m n = true →
      containsKey (l.foldl (fun m p =>
        if strStarts p.1 (toStr "--") = true then insertStore m p.1 (mkToken p.1 p.2) else m)
        m) n = true := by
    intro l
    induction l with
    | nil => intro m h; exact h
    | cons p rest ih =>
      intro m h
      rw [List.foldl_cons]
      refine ih _ ?_
      by_cases hs : strStarts p.1 (toStr "--") = true
      · rw [if_pos hs]
        exact (containsKey_insert _ _ _ _).mpr (Or.inr h)
      · rw [if_neg hs]
        exact h
  have main : ∀ (l : Store Str) (m : Store Token), (n, v) ∈ l →
      containsKey (l.foldl (fun m p =>
        if strStarts p.1 (toStr "--") = true then insertStore m p.1 (mkToken p.1 p.2) else m)
        m) n = true := by
    intro l
    induction l with
    | nil => intro m h; exact absurd h (by simp)
    | cons p rest ih =>
      intro m h
      rw [List.foldl_cons]
      rcases List.mem_cons.mp h with h | h
      · refine hmono rest _ ?_
        rw [← h]
        simp only [hdd, if_true]
        exact (containsKey_insert _ _ _ _).mpr (Or.inl rfl)
      · exact ih _ h
  exact main eff emptyStore hmem

theorem nodupKeys_allTokens (eff : Store Str) :
    nodupKeys (groupTheme eff).allTokens := by
  show nodupKeys (buildAll (categorize eff) (allProcessedTokens eff))
  unfold buildAll
  refine nodupKeys_insertFallback ?_
  have hphase1 : ∀ (l : List Bucket) (acc : Store AllVal), nodupKeys acc →
      nodupKeys (l.foldl (fun acc b => insertBucketSorted acc ((categorize eff) b)) acc) := by
    intro l
    induction l with
    | nil => intro acc h; exact h
    | cons b bl ih =>
      intro acc h
      rw [List.foldl_cons]
      exact ih _ (nodupKeys_insertBucketSorted h)
  have hphase2 : ∀ (l : List Bucket) (acc : Store AllVal), nodupKeys acc →
      nodupKeys (l.foldl (fun acc b => insertDirectCat acc ((categorize eff) b)) acc) := by
    intro l
    induction l with
    | nil => intro acc h; exact h
    | cons b bl ih =>
      intro acc h
      rw [List.foldl_cons]
      exact ih _ (nodupKeys_insertDirectCat h)
  exact hphase2 directCatOrder _ (hphase1 _ emptyStore (by simp [nodupKeys, storeKeys, emptyStore]))

/-- C1 as amended: a double-dash property of the effective map appears in
at most one category/subcategory slot of the classifier output and exactly
once in the synthetic "All" view (excluded chart and palette color names
appear in no slot, yet exactly once in "All"). -/
theorem classified_at_most_once_all_exactly_once (eff : Store Str) (n v : Str)
    (hmem : (n, v) ∈ eff) (hdd : strStarts n (toStr "--") = true) :
    countBuckets (groupTheme eff) n ≤ 1 ∧
    countKey (groupTheme eff).allTokens n = 1 := by
  constructor
  · unfold countBuckets
    refine countP_le_one_of_unique bucketList _ (by decide) ?_
    intro a b _ _ hpa hpb
    simp only [decide_eq_true_eq] at hpa hpb
    have ha := (containsKey_categorize eff a n hpa).1
    have hb := (containsKey_categorize eff b n hpb).1
    rw [ha] at hb
    exact Option.some.inj hb
  · refine countKey_eq_one _ n (nodupKeys_allTokens eff) ?_
    show containsKey (buildAll (categorize eff) (allProcessedTokens eff)) n = true
    unfold buildAll
    exact containsKey_insertFallback (containsKey_allProcessedTokens eff n v hmem hdd)

/-- Concrete instance of the amended C1. -/
theorem classified_at_most_once_all_exactly_once_witness :
    countBuckets (groupTheme [(toStr "--prism-spacing-sm", toStr "4px")])
      (toStr "--prism-spacing-sm") ≤ 1 ∧
    countKey (groupTheme [(toStr "--prism-spacing-sm", toStr "4px")]).allTokens
      (toStr "--prism-spacing-sm") = 1 :=
  classified_at_most_once_all_exactly_once
    [(toStr "--prism-spacing-sm", toStr "4px")]
    (toStr "--prism-spacing-sm") (toStr "4px") (by decide) (by decide)

/-- Counterexample to C1 as stated: the categorical chart color is a
property of the effective map, yet it appears in zero categories of the
classifier output (not exactly one); it still appears once in "All". -/
theorem chart_categorical_in_no_category :
    countBuckets (groupTheme
        [(toStr "--prism-color-chart-categorical-01", toStr "#fff")])
      (toStr "--prism-color-chart-categorical-01") = 0 ∧
    countKey (groupTheme
        [(toStr "--prism-color-chart-categorical-01", toStr "#fff")]).allTokens
      (toStr "--prism-color-chart-categorical-01") = 1 := by
  decide

/-- The fold step of `buildGeneralPalettes`. -/
def genStep (rows : Store (List Swatch)) (p : Str × Str) : Store (List Swatch) :=
  if strStarts p.1 (toStr "--prism-color-general-") = true then
    if strIncl p.1 (toStr "-alpha-") = true then rows
    else
      match matchCI (toStr "--prism-color-general-") p.1 with
      | none => rows
      | some rest =>
        match famStepSplit rest with
        | none => rows
        | some (family, step) => pushRow rows family (buildSwatch step p.2 p.1 none)
  else rows

/-- The fold step of `buildAlphaPalettes`. -/
def alphaStep (rows : Store (List Swatch)) (p : Str × Str) : Store (List Swatch) :=
  if strStarts p.1 (toStr "--prism-color-general-alpha-") = true then
    match matchCI (toStr "--prism-color-general-alpha-") p.1 with
    | none => rows
    | some rest =>
      match famStepSplit rest with
      | none => rows
      | some (family, step) => pushRow rows family (buildSwatch step p.2 p.1 none)
  else rows

theorem buildGeneralPalettes_eq (vars : Store Str) :
    buildGeneralPalettes vars =
      orderRows (vars.foldl genStep emptyStore) GENERAL_ORDER parseNumericStep false := rfl

theorem buildAlphaPalettes_eq (vars : Store Str) :
    buildAlphaPalettes vars =
      orderRows (vars.foldl alphaStep emptyStore) ALPHA_ORDER parseNumericStep false := rfl

theorem orderRows_false (rm : Store (List Swatch)) (pref : List Str)
    (f : Str → Int) :
    orderRows rm pref f false =
      sortJS (rowLe pref)
        (rm.map (fun p => Row.mk p.1 (formatLabel p.1) (sortJS (swatchLe f) p.2))) := rfl

theorem buildSwatch_cssVar {step value name : Str} {d : Option Str}
    (h : strStarts name (toStr "--") = true) :
    (buildSwatch step value name d).cssVar = name := by
  rw [strStarts_iff] at h
  rcases h with ⟨t, ht⟩
  have hv : strStarts name (toStr "var(") = false := by
    rw [← ht]
    show strStarts ('-' :: '-' :: t) ('v' :: 'a' :: 'r' :: '(' :: []) = false
    simp [strStarts]
  unfold buildSwatch
  simp only [hv, Bool.false_eq_true, if_false]

theorem pushRow_invariant (P : Swatch → Prop) {rows : Store (List Swatch)}
    {fam : Str} {sw : Swatch}
    (hrows : ∀ q ∈ rows, ∀ s ∈ (q : Str × List Swatch).2, P s) (hsw : P sw) :
    ∀ q ∈ pushRow rows fam sw, ∀ s ∈ (q : Str × List Swatch).2, P s := by
  intro q hq s hs
  unfold pushRow at hq
  cases hl : lookupStore rows fam with
  | some l =>
    rw [hl] at hq
    rcases mem_insertStore hq with hq | hq
    · exact hrows q hq s hs
    · rw [hq] at hs
      rcases List.mem_append.mp hs with hs | hs
      · exact hrows (fam, l) (lookup_mem _ _ _ hl) s hs
      · rw [List.mem_singleton.mp hs]
        exact hsw
  | none =>
    rw [hl] at hq
    rcases mem_insertStore hq with hq | hq
    · exact hrows q hq s hs
    · rw [hq] at hs
      rw [List.mem_singleton.mp hs]
      exact hsw

/-- Every swatch the general builder collects: a double-dash general color
name free of the alpha infix, recorded in the swatch's back-reference. -/
def PGen (sw : Swatch) : Prop :=
  strStarts sw.cssVar (toStr "--prism-color-general-") = true ∧
  strIncl sw.cssVar (toStr "-alpha-") = false

/-- Every swatch the alpha builder collects carries the alpha prefix. -/
def PAlpha (sw : Swatch) : Prop :=
  strStarts sw.cssVar (toStr "--prism-color-general-alpha-") = true

theorem genPre_dashdash {n : Str}
    (h : strStarts n (toStr "--prism-color-general-") = true) :
    strStarts n (toStr "--") = true := by
  have heq : toStr "--prism-color-general-" = toStr "--" ++ toStr "prism-color-general-" := by
    decide
  exact strStarts_of_append n _ _ (heq ▸ h)

theorem alphaPre_dashdash {n : Str}
    (h : strStarts n (toStr "--prism-color-general-alpha-") = true) :
    strStarts n (toStr "--") = true := by
  have heq : toStr "--prism-color-general-alpha-" =
      toStr "--" ++ toStr "prism-color-general-alpha-" := by decide
  exact strStarts_of_append n _ _ (heq ▸ h)

theorem genRows_invariant (vars : Store Str) :
    ∀ (rows : Store (List Swatch)),
    (∀ q ∈ rows, ∀ s ∈ (q : Str × List Swatch).2, PGen s) →
    ∀ q ∈ vars.foldl genStep rows, ∀ s ∈ (q : Str × List Swatch).2, PGen s := by
  induction vars with
  | nil => intro rows h; exact h
  | cons p rest ih =>
    intro rows h
    rw [List.foldl_cons]
    refine ih (genStep rows p) ?_
    unfold genStep
    by_cases h1 : strStarts p.1 (toStr "--prism-color-general-") = true
    · rw [if_pos h1]
      by_cases h2 : strIncl p.1 (toStr "-alpha-") = true
      · rw [if_pos h2]
        exact h
      · rw [if_neg h2]
        cases hm : matchCI (toStr "--prism-color-general-") p.1 with
        | none => exact h
        | some rest' =>
          dsimp only
          cases hf : famStepSplit rest' with
          | none => exact h
          | some fs =>
            refine pushRow_invariant PGen h ?_
            constructor
            · rw [buildSwatch_cssVar (genPre_dashdash h1)]
              exact h1
            · rw [buildSwatch_cssVar (genPre_dashdash h1)]
              cases hi : strIncl p.1 (toStr "-alpha-") with
              | false => rfl
              | true => exact absurd hi h2
    · rw [if_neg h1]
      exact h

theorem alphaRows_invariant (vars : Store Str) :
    ∀ (rows : Store (List Swatch)),
    (∀ q ∈ rows, ∀ s ∈ (q : Str × List Swatch).2, PAlpha s) →
    ∀ q ∈ vars.foldl alphaStep rows, ∀ s ∈ (q : Str × List Swatch).2, PAlpha s := by
  induction vars with
  | nil => intro rows h; exact h
  | cons p rest ih =>
    intro rows h
    rw [List.foldl_cons]
    refine ih (alphaStep rows p) ?_
    unfold alphaStep
    by_cases h1 : strStarts p.1 (toStr "--prism-color-general-alpha-") = true
    · rw [if_pos h1]
      cases hm : matchCI (toStr "--prism-color-general-alpha-") p.1 with
      | none => exact h
      | some rest' =>
        dsimp only
        cases hf : famStepSplit rest' with
        | none => exact h
        | some fs =>
          refine pushRow_invariant PAlpha h ?_
          show strStarts (buildSwatch fs.2 p.2 p.1 none).cssVar _ = true
          rw [buildSwatch_cssVar (alphaPre_dashdash h1)]
          exact h1
    · rw [if_neg h1]
      exact h

theorem mem_buildGeneralPalettes {vars : Store Str} {row : Row} {sw : Swatch}
    (hrow : row ∈ buildGeneralPalettes vars) (hsw : sw ∈ row.swatches) : PGen sw := by
  rw [buildGeneralPalettes_eq, orderRows_false] at hrow
  rw [mem_sortJS] at hrow
  rcases List.mem_map.mp hrow with ⟨p, hp, hrow⟩
  rw [← hrow] at hsw
  simp only [Row.mk] at hsw
  rw [mem_sortJS] at hsw
  exact genRows_invariant vars emptyStore
    (fun q hq => absurd hq (by simp [emptyStore])) p hp sw hsw

theorem mem_buildAlphaPalettes {vars : Store Str} {row : Row} {sw : Swatch}
    (hrow : row ∈ buildAlphaPalettes vars) (hsw : sw ∈ row.swatches) : PAlpha sw := by
  rw [buildAlphaPalettes_eq, orderRows_false] at hrow
  rw [mem_sortJS] at hrow
  rcases List.mem_map.mp hrow with ⟨p, hp, hrow⟩
  rw [← hrow] at hsw
  simp only [Row.mk] at hsw
  rw [mem_sortJS] at hsw
  exact alphaRows_invariant vars emptyStore
    (fun q hq => absurd hq (by simp [emptyStore])) p hp sw hsw

/-- A property name backs a swatch of one of the palette rows. -/
def swatchNameIn (rows : List Row) (n : Str) : Prop :=
  ∃ row ∈ rows, ∃ sw ∈ row.swatches, sw.cssVar = n

instance (rows : List Row) (n : Str) : Decidable (swatchNameIn rows n) := by
  unfold swatchNameIn
  infer_instance

/-- C7: no property is classified into both the "general" and the "alpha"
palette set: the general selector excludes the alpha-marker infix that the
alpha selector's prefix forces. -/
theorem alpha_general_exclusive (vars : Store Str) (n : Str)
    (hg : swatchNameIn (buildGeneralPalettes vars) n) :
    ¬ swatchNameIn (buildAlphaPalettes vars) n := by
  rcases hg with ⟨row, hrow, sw, hsw, hname⟩
  have hPg : PGen sw := mem_buildGeneralPalettes hrow hsw
  rintro ⟨row', hrow', sw', hsw', hname'⟩
  have hPa : PAlpha sw' := mem_buildAlphaPalettes hrow' hsw'
  unfold PAlpha at hPa
  rw [hname'] at hPa
  have hincl : strIncl n (toStr "-alpha-") = false := by
    have := hPg.2
    rwa [hname] at this
  have htrue : strIncl n (toStr "-alpha-") = true := by
    rw [strIncl_iff]
    rw [strStarts_iff] at hPa
    rcases hPa with ⟨t, ht⟩
    have hdecomp : toStr "--prism-color-general-alpha-" =
        toStr "--prism-color-general" ++ toStr "-alpha-" := by decide
    refine ⟨toStr "--prism-color-general", t, ?_⟩
    rw [← hdecomp]
    exact ht
  rw [htrue] at hincl
  exact Bool.noConfusion hincl

/-- Concrete instance of C7. -/
theorem alpha_general_exclusive_witness :
    swatchNameIn
      (buildGeneralPalettes
        [(toStr "--prism-color-general-info-100", toStr "#123456"),
         (toStr "--prism-color-general-alpha-info-100", toStr "#12345678")])
      (toStr "--prism-color-general-info-100") ∧
    ¬ swatchNameIn
      (buildAlphaPalettes
        [(toStr "--prism-color-general-info-100", toStr "#123456"),
         (toStr "--prism-color-general-alpha-info-100", toStr "#12345678")])
      (toStr "--prism-color-general-info-100") := by
  refine ⟨by decide, ?_⟩
  exact alpha_general_exclusive
    [(toStr "--prism-color-general-info-100", toStr "#123456"),
     (toStr "--prism-color-general-alpha-info-100", toStr "#12345678")]
    (toStr "--prism-color-general-info-100") (by decide)

theorem digit_not_ws {c : Char} (h : c.isDigit = true) : isWsJS c = false := by
  cases hw : isWsJS c with
  | false => rfl
  | true =>
    exfalso
    unfold isWsJS at hw
    simp only [Bool.or_eq_true, decide_eq_true_eq] at hw
    rcases hw with ((((h1 | h1) | h1) | h1) | h1) | h1 <;>
      (subst h1; exact absurd h (by decide))

theorem digit_ne_minus {c : Char} (h : c.isDigit = true) : ¬ (c = '-') := by
  intro hc
  subst hc
  exact absurd h (by decide)

theorem digit_ne_plus {c : Char} (h : c.isDigit = true) : ¬ (c = '+') := by
  intro hc
  subst hc
  exact absurd h (by decide)

theorem takeWhile_all {p : Char → Bool} (l : Str) (h : ∀ c ∈ l, p c = true) :
    l.takeWhile p = l := by
  induction l with
  | nil => rfl
  | cons c t ih =>
    rw [List.takeWhile_cons, h c (List.mem_cons_self c t)]
    simp only [if_true]
    rw [ih (fun c hc => h c (List.mem_cons_of_mem _ hc))]

theorem foldl_digit_zeros (z : Str) (h : ∀ c ∈ z, c = '0') :
    z.foldl (fun a c => 10 * a + (c.toNat - 48)) 0 = 0 := by
  induction z with
  | nil => rfl
  | cons c t ih =>
    rw [List.foldl_cons]
    have hc : c = '0' := h c (List.mem_cons_self c t)
    subst hc
    show t.foldl (fun a c => 10 * a + (c.toNat - 48)) 0 = 0
    exact ih (fun c hc => h c (List.mem_cons_of_mem _ hc))

theorem digitsVal_drop_zeros (s : Str) :
    digitsVal s = digitsVal (s.dropWhile (fun c => c = '0')) := by
  unfold digitsVal
  conv_lhs => rw [← List.takeWhile_append_dropWhile (p := fun c => decide (c = '0')) (l := s)]
  rw [List.foldl_append]
  have hz : (s.takeWhile (fun c => decide (c = '0'))).foldl
      (fun a c => 10 * a + (c.toNat - 48)) 0 = 0 := by
    refine foldl_digit_zeros _ ?_
    intro c hc
    have hp := List.mem_takeWhile_imp (p := fun c => decide (c = '0')) hc
    exact of_decide_eq_true hp
  rw [hz]

theorem jsParseInt10_digits (s : Str) (hne : s ≠ []) (hdig : ∀ c ∈ s, c.isDigit = true) :
    jsParseInt10 s = some ((digitsVal s : Nat) : Int) := by
  cases s with
  | nil => exact absurd rfl hne
  | cons c t =>
    have hc : c.isDigit = true := hdig c (List.mem_cons_self c t)
    unfold jsParseInt10
    rw [List.dropWhile_cons, digit_not_ws hc]
    simp only [Bool.false_eq_true, if_false, digit_ne_minus hc, digit_ne_plus hc]
    unfold digitRun
    rw [takeWhile_all (c :: t) hdig]
    simp

theorem parseNumericStep_digits (s : Str) (hne : s ≠ [])
    (hdig : ∀ c ∈ s, c.isDigit = true) :
    parseNumericStep s = ((digitsVal s : Nat) : Int) := by
  unfold parseNumericStep
  rw [if_neg hne]
  by_cases hcl : s.dropWhile (fun c => c = '0') = []
  · simp only [hcl, if_true]
    have hz : digitsVal s = 0 := by
      rw [digitsVal_drop_zeros s, hcl]
      rfl
    rw [hz]
    rfl
  · simp only [hcl, if_false]
    have hsub : ∀ c ∈ s.dropWhile (fun c => c = '0'), c.isDigit = true := by
      intro c hcmem
      exact hdig c ((List.dropWhile_sublist _).subset hcmem)
    rw [jsParseInt10_digits _ hcl hsub]
    rw [digitsVal_drop_zeros s]

theorem digit_val_le {c : Char} (h : c.isDigit = true) : c.toNat - 48 ≤ 9 := by
  unfold Char.isDigit at h
  simp only [Bool.and_eq_true, decide_eq_true_eq] at h
  have h9 : c.toNat ≤ 57 := h.2
  omega

theorem digitsVal_lt (run : Str) (h : ∀ c ∈ run, c.isDigit = true) :
    digitsVal run < 10 ^ run.length := by
  unfold digitsVal
  suffices hgen : ∀ (l : Str) (a : Nat), (∀ c ∈ l, c.isDigit = true) →
      l.foldl (fun a c => 10 * a + (c.toNat - 48)) a < (a + 1) * 10 ^ l.length by
    simpa using hgen run 0 h
  intro l
  induction l with
  | nil =>
    intro a _
    simp only [List.foldl_nil, List.length_nil, pow_zero, Nat.mul_one]
    exact Nat.lt_succ_self a
  | cons c t ih =>
    intro a hc
    rw [List.foldl_cons]
    have hd : c.toNat - 48 ≤ 9 := digit_val_le (hc c (List.mem_cons_self c t))
    calc t.foldl (fun a c => 10 * a + (c.toNat - 48)) (10 * a + (c.toNat - 48))
        < (10 * a + (c.toNat - 48) + 1) * 10 ^ t.length :=
          ih _ (fun c hcm => hc c (List.mem_cons_of_mem _ hcm))
      _ ≤ ((a + 1) * 10) * 10 ^ t.length := by
          refine Nat.mul_le_mul_right _ ?_
          omega
      _ = (a + 1) * 10 ^ (c :: t).length := by
          rw [List.length_cons, pow_succ]
          ring

theorem max_safe_eval : MAX_SAFE_INTEGER = 9007199254740991 := by
  norm_num [MAX_SAFE_INTEGER]

theorem jsParseInt10_le (s : Str) (v : Int) (h : jsParseInt10 s = some v) :
    v < (10 : Int) ^ s.length := by
  have hten : (1 : Int) ≤ 10 := by norm_num
  have hpow_pos : (0 : Int) < 10 ^ s.length := pow_pos (by norm_num) _
  unfold jsParseInt10 at h
  cases hdw : s.dropWhile isWsJS with
  | nil =>
    rw [hdw] at h
    exact Option.noConfusion h
  | cons c t =>
    rw [hdw] at h
    dsimp only at h
    have hlen : t.length + 1 ≤ s.length := by
      have hle := (List.dropWhile_sublist (l := s) isWsJS).length_le
      rw [hdw] at hle
      simpa using hle
    have hrun : ∀ (x : Str) (n : Nat), digitRun x = some n → x.length ≤ s.length →
        ((n : Int) < (10 : Int) ^ s.length) := by
      intro x n hx hxs
      unfold digitRun at hx
      by_cases hr : x.takeWhile Char.isDigit = []
      · rw [if_pos hr] at hx
        exact Option.noConfusion hx
      · rw [if_neg hr] at hx
        have hn : n = digitsVal (x.takeWhile Char.isDigit) := (Option.some.inj hx).symm
        have hdigs : ∀ c ∈ x.takeWhile Char.isDigit, c.isDigit = true := by
          intro c hc
          exact List.mem_takeWhile_imp hc
        have hlt := digitsVal_lt _ hdigs
        have hlen2 : (x.takeWhile Char.isDigit).length ≤ s.length :=
          le_trans (List.takeWhile_sublist (l := x) Char.isDigit).length_le hxs
        calc (n : Int) < ((10 : Nat) : Int) ^ (x.takeWhile Char.isDigit).length := by
              rw [hn]
              exact_mod_cast hlt
          _ ≤ (10 : Int) ^ s.length := by
              refine pow_le_pow_right₀ (by norm_num) hlen2
    by_cases hm : c = '-'
    · rw [if_pos hm] at h
      rcases Option.map_eq_some'.mp h with ⟨n, hn, hv⟩
      rcases Option.bind_eq_some.mp hn with ⟨a, _, hpa⟩
      have hna : n = (a : Int) := (Option.some.inj hpa).symm
      rw [← hv, hna]
      calc -((a : Int)) ≤ 0 := by simp
        _ < 10 ^ s.length := hpow_pos
    · rw [if_neg hm] at h
      by_cases hp : c = '+'
      · rw [if_pos hp] at h
        rcases Option.map_eq_some'.mp h with ⟨n, hn, hv⟩
        rcases Option.bind_eq_some.mp hn with ⟨a, ha, hpa⟩
        have hna : n = (a : Int) := (Option.some.inj hpa).symm
        rw [← hv, hna]
        exact hrun t a ha (by omega)
      · rw [if_neg hp] at h
        rcases Option.map_eq_some'.mp h with ⟨n, hn, hv⟩
        rcases Option.bind_eq_some.mp hn with ⟨a, ha, hpa⟩
        have hna : n = (a : Int) := (Option.some.inj hpa).symm
        rw [← hv, hna]
        exact hrun (c :: t) a ha (by simpa using hlen)

theorem parseNumericStep_le_max (t : Str) (hlen : t.length ≤ 3) :
    parseNumericStep t ≤ MAX_SAFE_INTEGER := by
  unfold parseNumericStep
  by_cases h0 : t = []
  · rw [if_pos h0]
  · rw [if_neg h0]
    by_cases hcl : t.dropWhile (fun c => c = '0') = []
    · simp only [hcl, if_true]
      rw [max_safe_eval]
      norm_num
    · simp only [hcl, if_false]
      cases hpi : jsParseInt10 (t.dropWhile (fun c => c = '0')) with
      | none => exact le_refl _
      | some v =>
        dsimp only
        have hvlen : (t.dropWhile (fun c => c = '0')).length ≤ 3 :=
          le_trans (List.dropWhile_sublist (l := t) _).length_le hlen
        have hv := jsParseInt10_le _ v hpi
        have hb : v < (10 : Int) ^ 3 := by
          calc v < (10 : Int) ^ (t.dropWhile (fun c => c = '0')).length := hv
            _ ≤ (10 : Int) ^ 3 := pow_le_pow_right₀ (by norm_num) hvlen
        rw [max_safe_eval]
        have : (10 : Int) ^ 3 = 1000 := by norm_num
        omega

theorem orderRows_true (rm : Store (List Swatch)) (pref : List Str)
    (f : Str → Int) :
    orderRows rm pref f true =
      (sortJS (rowLe pref)
        (rm.map (fun p => Row.mk p.1 (formatLabel p.1) (sortJS (swatchLe f) p.2)))).map
        (fun r => Row.mk r.id r.label
          (r.swatches.map (fun sw =>
            Swatch.mk sw.step (padStart2 sw.step) sw.fallback sw.cssVar))) := rfl

theorem orderRows_swatches_sorted (rm : Store (List Swatch)) (pref : List Str)
    (f : Str → Int) (keep : Bool) (row : Row)
    (hrow : row ∈ orderRows rm pref f keep) :
    row.swatches.Chain' (fun a b => f a.step ≤ f b.step) := by
  have htot : ∀ a b : Swatch, swatchLe f a b = true ∨ swatchLe f b a = true := by
    intro a b
    unfold swatchLe
    rcases le_total (f a.step) (f b.step) with h | h
    · exact Or.inl (decide_eq_true h)
    · exact Or.inr (decide_eq_true h)
  have htrans : ∀ a b c : Swatch, swatchLe f a b = true → swatchLe f b c = true →
      swatchLe f a c = true := by
    intro a b c hab hbc
    unfold swatchLe at *
    exact decide_eq_true (le_trans (of_decide_eq_true hab) (of_decide_eq_true hbc))
  have hcore : ∀ r ∈ sortJS (rowLe pref)
      (rm.map (fun p => Row.mk p.1 (formatLabel p.1) (sortJS (swatchLe f) p.2))),
      r.swatches.Chain' (fun a b => f a.step ≤ f b.step) := by
    intro r hr
    rw [mem_sortJS] at hr
    rcases List.mem_map.mp hr with ⟨p, _, hr⟩
    rw [← hr]
    have hpw := pairwise_sortJS (swatchLe f) htot htrans p.2
    show (sortJS (swatchLe f) p.2).Chain' _
    refine List.Pairwise.chain' (hpw.imp ?_)
    intro a b h
    exact of_decide_eq_true h
  cases keep with
  | false =>
    rw [orderRows_false] at hrow
    exact hcore row hrow
  | true =>
    rw [orderRows_true] at hrow
    rcases List.mem_map.mp hrow with ⟨r, hr, hrow⟩
    rw [← hrow]
    have hch := hcore r hr
    show (r.swatches.map _).Chain' _
    rw [List.chain'_map]
    exact hch

/-- C6: within every palette family row the builder produces, adjacent
swatches are ordered by non-decreasing numeric step; zero-padded and
unpadded digit strings denoting the same number compare equal, and a step
that fails to parse (up to the builders' three-digit step width) sorts
after every numeric step. -/
theorem step_ordering (rowsMap : Store (List Swatch)) (pref : List Str)
    (keep : Bool) (row : Row)
    (hrow : row ∈ orderRows rowsMap pref parseNumericStep keep) :
    row.swatches.Chain'
      (fun a b => parseNumericStep a.step ≤ parseNumericStep b.step) ∧
    (∀ s t : Str, s ≠ [] → t ≠ [] → (∀ c ∈ s, c.isDigit = true) →
      (∀ c ∈ t, c.isDigit = true) → digitsVal s = digitsVal t →
      parseNumericStep s = parseNumericStep t) ∧
    (∀ s t : Str, parseNumericStep s = MAX_SAFE_INTEGER → t.length ≤ 3 →
      parseNumericStep t ≤ parseNumericStep s) := by
  refine ⟨orderRows_swatches_sorted rowsMap pref parseNumericStep keep row hrow, ?_, ?_⟩
  · intro s t hs ht hds hdt heq
    rw [parseNumericStep_digits s hs hds, parseNumericStep_digits t ht hdt, heq]
  · intro s t hmax hlen
    rw [hmax]
    exact parseNumericStep_le_max t hlen

/-- Concrete instance of C6: the swatches of the single "info" row arrive
sorted 01 before 02 before 100, and "01" compares equal to "1". -/
theorem step_ordering_witness :
    (Row.mk (toStr "info") (toStr "Info")
        [Swatch.mk (toStr "01") (toStr "01") (toStr "#a") (toStr "--x1"),
         Swatch.mk (toStr "02") (toStr "02") (toStr "#b") (toStr "--x2")]) ∈
      orderRows
        [(toStr "info",
          [Swatch.mk (toStr "02") (toStr "02") (toStr "#b") (toStr "--x2"),
           Swatch.mk (toStr "01") (toStr "01") (toStr "#a") (toStr "--x1")])]
        GENERAL_ORDER parseNumericStep false ∧
    List.Chain' (fun a b => parseNumericStep a.step ≤ parseNumericStep b.step)
      [Swatch.mk (toStr "01") (toStr "01") (toStr "#a") (toStr "--x1"),
       Swatch.mk (toStr "02") (toStr "02") (toStr "#b") (toStr "--x2")] ∧
    parseNumericStep (toStr "01") = parseNumericStep (toStr "1") := by
  have hmem :
      (Row.mk (toStr "info") (toStr "Info")
        [Swatch.mk (toStr "01") (toStr "01") (toStr "#a") (toStr "--x1"),
         Swatch.mk (toStr "02") (toStr "02") (toStr "#b") (toStr "--x2")]) ∈
      orderRows
        [(toStr "info",
          [Swatch.mk (toStr "02") (toStr "02") (toStr "#b") (toStr "--x2"),
           Swatch.mk (toStr "01") (toStr "01") (toStr "#a") (toStr "--x1")])]
        GENERAL_ORDER parseNumericStep false := by decide
  refine ⟨hmem, ?_, ?_⟩
  · exact (step_ordering _ GENERAL_ORDER false _ hmem).1
  · exact (step_ordering _ GENERAL_ORDER false _ hmem).2.1
      (toStr "01") (toStr "1") (by decide) (by decide) (by decide) (by decide) (by decide)

/-- C10: when the declaration splitter's fallback pass is triggered (the
primary regex stored fewer than 500 declarations), the fallback's pairs are
merged into the primary pass's map rather than replacing it: on a shared
name the fallback's last value wins, every other primary entry keeps its
primary value. -/
theorem fallback_merges (block : Str)
    (h : regexMatchCount (normalizeBlock block) < 500) (n : Str) :
    lookupStore (parseCSSVarBlock block) n =
      match lastLookup (fallbackPairs (normalizeBlock block)) n with
      | some v => some v
      | none => lastLookup (primaryPairs (normalizeBlock block)) n := by
  show lookupStore
      (if regexMatchCount (normalizeBlock block) < 500 then
        assignStore (assignStore emptyStore (primaryPairs (normalizeBlock block)))
          (fallbackPairs (normalizeBlock block))
      else assignStore emptyStore (primaryPairs (normalizeBlock block))) n = _
  rw [if_pos h, lookup_assign]
  cases lastLookup (fallbackPairs (normalizeBlock block)) n with
  | some v => rfl
  | none =>
    rw [lookup_assign]
    cases lastLookup (primaryPairs (normalizeBlock block)) n with
    | some v => rfl
    | none => rfl

/-- Concrete instance of C10: with the fallback triggered, a primary pair
survives the merge. -/
theorem fallback_merges_witness :
    regexMatchCount (normalizeBlock (toStr "--a:1;--b:2;")) < 500 ∧
    lookupStore (parseCSSVarBlock (toStr "--a:1;--b:2;")) (toStr "--a") =
      some (toStr "1") := by
  refine ⟨by decide, ?_⟩
  rw [fallback_merges (toStr "--a:1;--b:2;") (by decide) (toStr "--a")]
  decide

theorem nodupKeys_parseCSSVarBlock (block : Str) :
    nodupKeys (parseCSSVarBlock block) := by
  show nodupKeys
      (if regexMatchCount (normalizeBlock block) < 500 then
        assignStore (assignStore emptyStore (primaryPairs (normalizeBlock block)))
          (fallbackPairs (normalizeBlock block))
      else assignStore emptyStore (primaryPairs (normalizeBlock block)))
  have hempty : nodupKeys (emptyStore (α := Str)) := by
    simp [nodupKeys, storeKeys, emptyStore]
  by_cases h : regexMatchCount (normalizeBlock block) < 500
  · rw [if_pos h]
    exact nodupKeys_assign _ _ (nodupKeys_assign _ _ hempty)
  · rw [if_neg h]
    exact nodupKeys_assign _ _ hempty

/-- The block body at the first discriminator occurrence of a theme name in
the stylesheet, if any: the behavior the theme loop's seen-set reduces to. -/
def firstThemeBlock (css θ : Str) : Option Str :=
  ((themeMatches css).filter (fun p => cleanThemeName p.1 = θ)).head?.map
    (fun p => extractBlockAtSuffix p.2)

theorem themeLoop_seen (ms : List (Str × Str)) :
    ∀ (seen : List Str) (m : Store (Store Str)) (θ : Str),
    θ ∈ seen → lookupStore (themeLoop ms seen m) θ = lookupStore m θ := by
  induction ms with
  | nil => intro seen m θ _; rfl
  | cons p rest ih =>
    intro seen m θ hθ
    rcases p with ⟨raw, suf⟩
    show lookupStore (themeLoop ((raw, suf) :: rest) seen m) θ = _
    rw [themeLoop]
    by_cases h1 : cleanThemeName raw = [] ∨ cleanThemeName raw ∈ seen
    · rw [if_pos h1]
      exact ih seen m θ hθ
    · rw [if_neg h1]
      have hne : cleanThemeName raw ≠ θ := by
        intro hh
        exact h1 (Or.inr (hh ▸ hθ))
      by_cases h2 : extractBlockAtSuffix suf = []
      · rw [if_pos h2]
        exact ih _ m θ (List.mem_cons_of_mem _ hθ)
      · rw [if_neg h2]
        rw [ih _ _ θ (List.mem_cons_of_mem _ hθ)]
        exact lookup_insert_ne m _ θ _ (fun hh => hne hh.symm)

theorem themeLoop_lookup (ms : List (Str × Str)) :
    ∀ (seen : List Str) (m : Store (Store Str)) (θ : Str),
    θ ≠ [] → θ ∉ seen →
    lookupStore (themeLoop ms seen m) θ =
      match (ms.filter (fun p => cleanThemeName p.1 = θ)).head? with
      | none => lookupStore m θ
      | some p =>
        if extractBlockAtSuffix p.2 = [] then lookupStore m θ
        else some (assignStore ((lookupStore m θ).getD emptyStore)
          (parseCSSVarBlock (extractBlockAtSuffix p.2))) := by
  induction ms with
  | nil =>
    intro seen m θ _ _
    rfl
  | cons p rest ih =>
    intro seen m θ hθ hseen
    rcases p with ⟨raw, suf⟩
    show lookupStore (themeLoop ((raw, suf) :: rest) seen m) θ = _
    rw [themeLoop]
    by_cases hname : cleanThemeName raw = θ
    · have h1 : ¬ (cleanThemeName raw = [] ∨ cleanThemeName raw ∈ seen) := by
        rintro (hh | hh)
        · exact hθ (hname ▸ hh)
        · exact hseen (hname ▸ hh)
      rw [if_neg h1]
      have hfilter : ((raw, suf) :: rest).filter (fun p => cleanThemeName p.1 = θ) =
          (raw, suf) :: rest.filter (fun p => cleanThemeName p.1 = θ) := by
        rw [List.filter_cons]
        simp [hname]
      rw [hfilter]
      simp only [List.head?_cons]
      by_cases h2 : extractBlockAtSuffix suf = []
      · rw [if_pos h2, if_pos h2]
        exact themeLoop_seen rest _ m θ (hname ▸ List.mem_cons_self _ _)
      · rw [if_neg h2, if_neg h2]
        rw [themeLoop_seen rest _ _ θ (hname ▸ List.mem_cons_self _ _)]
        rw [hname]
        show lookupStore (insertStore m θ _) θ = _
        rw [lookup_insert_self]
    · by_cases h1 : cleanThemeName raw = [] ∨ cleanThemeName raw ∈ seen
      · rw [if_pos h1]
        have hfilter : ((raw, suf) :: rest).filter (fun p => cleanThemeName p.1 = θ) =
            rest.filter (fun p => cleanThemeName p.1 = θ) := by
          rw [List.filter_cons]
          simp [hname]
        rw [hfilter]
        exact ih seen m θ hθ hseen
      · rw [if_neg h1]
        have hfilter : ((raw, suf) :: rest).filter (fun p => cleanThemeName p.1 = θ) =
            rest.filter (fun p => cleanThemeName p.1 = θ) := by
          rw [List.filter_cons]
          simp [hname]
        rw [hfilter]
        have hseen' : θ ∉ cleanThemeName raw :: seen := by
          intro hh
          rcases List.mem_cons.mp hh with hh | hh
          · exact hname hh.symm
          · exact hseen hh
        by_cases h2 : extractBlockAtSuffix suf = []
        · rw [if_pos h2]
          exact ih _ m θ hθ hseen'
        · rw [if_neg h2]
          rw [ih _ _ θ hθ hseen']
          rw [lookup_insert_ne m _ θ _ (fun hh => hname hh.symm)]

def cssTwoDarkBlocks : Str :=
  toStr "[data-theme=dark]\x7b--a:1;\x7d[data-theme=dark]\x7b--b:2;\x7d"

def cssPalDark : Str :=
  toStr ":root[data-theme=" ++ [quoteChar] ++ toStr "dark" ++ [quoteChar] ++
    toStr "]\x7b--a:1;\x7d"

def cssTwoRootBlocks : Str := toStr ":root\x7b--a:1;\x7d:root\x7b--b:2;\x7d"

def cssDepthExample : Str := toStr ":root\x7b--a:\x7bq\x7d;--b:2;\x7d"

/-- A stylesheet whose theme discriminator is the base key itself: the
`[data-theme=root]` block merges into the base map on top of the root
block. -/
def cssRootThemeAlias : Str :=
  toStr ":root\x7b--x:9;\x7d[data-theme=root]\x7b--a:1;\x7d"

/-- A stylesheet with no root block at all, only a root-named theme
block. -/
def cssRootAlias : Str := toStr "[data-theme=root]\x7b--a:1;\x7d"

theorem lookup_singleton_self {α : Type} (k : Str) (v : α) :
    lookupStore [(k, v)] k = some v := by
  show (if k = k then some v else lookupStore [] k) = some v
  rw [if_pos rfl]

theorem lookup_singleton_ne {α : Type} (k θ : Str) (v : α) (h : θ ≠ k) :
    lookupStore [(k, v)] θ = none := by
  show (if k = θ then some v else lookupStore [] θ) = none
  rw [if_neg (fun hh => h hh.symm)]
  rfl

theorem lookup_parseRootMapBase_self (css : Str) :
    lookupStore (parseRootMapBase css) rootKey =
      some ((rootBlocks css).foldl (fun m b =>
        if b = [] then m else assignStore m (parseCSSVarBlock b)) emptyStore) :=
  lookup_singleton_self rootKey _

theorem lookup_parseRootMapBase_ne (css θ : Str) (h : θ ≠ rootKey) :
    lookupStore (parseRootMapBase css) θ = none :=
  lookup_singleton_ne rootKey θ _ h

/-- The probe fallback only ever touches the entry at the base key. -/
theorem probeFix_lookup_ne_root (css : Str) (m : Store (Store Str)) (θ : Str)
    (hθ : θ ≠ rootKey) : lookupStore (probeFix css m) θ = lookupStore m θ := by
  unfold probeFix
  by_cases hc : containsKey (rootMapOf m) probeName = false ∧
      strIncl css (probeName ++ [':']) = true
  · rw [if_pos hc]
    cases probeDeclF (css.length + 1) css with
    | none => rfl
    | some v => exact lookup_insert_ne m rootKey θ _ hθ
  · rw [if_neg hc]

/-- Inside the base map, the probe fallback only ever touches the probe
variable. -/
theorem rootMapOf_probeFix_ne (css : Str) (m : Store (Store Str)) (n : Str)
    (hn : n ≠ probeName) :
    lookupStore (rootMapOf (probeFix css m)) n = lookupStore (rootMapOf m) n := by
  unfold probeFix
  by_cases hc : containsKey (rootMapOf m) probeName = false ∧
      strIncl css (probeName ++ [':']) = true
  · rw [if_pos hc]
    cases probeDeclF (css.length + 1) css with
    | none => rfl
    | some v =>
      show lookupStore
        (rootMapOf (insertStore m rootKey (insertStore (rootMapOf m) probeName v))) n = _
      unfold rootMapOf
      rw [lookup_insert_self]
      show lookupStore (insertStore ((lookupStore m rootKey).getD emptyStore) probeName v) n = _
      rw [lookup_insert_ne _ probeName n v hn]
  · rw [if_neg hc]

/-- Counterexample to C2 as stated: with two dark-theme blocks, only the
first is extracted into the dark override map (the second block's
declaration is missing), and the palette front end's theme extraction
returns nothing even for a single ordinary dark block. -/
theorem theme_merge_counterexample :
    (lookupStore (parseTokensCSS cssTwoDarkBlocks) (toStr "dark")).bind
      (fun m => lookupStore m (toStr "--b")) = none ∧
    (lookupStore (parseTokensCSS cssTwoDarkBlocks) (toStr "dark")).bind
      (fun m => lookupStore m (toStr "--a")) = some (toStr "1") ∧
    (extractCSSVars cssPalDark (toStr "dark")).overrides = [] := by
  refine ⟨?_, ?_, ?_⟩ <;> decide

/-- C2 as amended: for each theme name other than the base key `root`, the
extraction engine uses only the block at the first occurrence of the theme
discriminator — later blocks of the same theme are skipped by the
seen-set — while a block whose discriminator name is `root` instead merges
into the shared base map on top of the root blocks. -/
theorem theme_first_block_only (css θ : Str) (hθ : θ ≠ []) (hr : θ ≠ rootKey) :
    (lookupStore (parseTokensCSS css) θ =
      match firstThemeBlock css θ with
      | none => none
      | some content =>
        if content = [] then none else some (parseCSSVarBlock content)) ∧
    rootMapOf (parseTokensCSS cssRootThemeAlias) =
      [(toStr "--x", toStr "9"), (toStr "--a", toStr "1")] := by
  refine ⟨?_, by decide⟩
  unfold parseTokensCSS
  rw [probeFix_lookup_ne_root css _ θ hr]
  rw [themeLoop_lookup (themeMatches css) [] (parseRootMapBase css) θ hθ (by simp)]
  rw [lookup_parseRootMapBase_ne css θ hr]
  unfold firstThemeBlock
  cases hh : ((themeMatches css).filter (fun p => cleanThemeName p.1 = θ)).head? with
  | none => rfl
  | some p =>
    simp only [Option.map_some']
    by_cases h2 : extractBlockAtSuffix p.2 = []
    · rw [if_pos h2, if_pos h2]
    · rw [if_neg h2, if_neg h2]
      show some (assignStore emptyStore (parseCSSVarBlock _)) = _
      rw [assign_empty_eq _ (nodupKeys_parseCSSVarBlock _)]

/-- Concrete instance of the amended C2. -/
theorem theme_first_block_only_witness :
    lookupStore (parseTokensCSS cssTwoDarkBlocks) (toStr "dark") =
      match firstThemeBlock cssTwoDarkBlocks (toStr "dark") with
      | none => none
      | some content =>
        if content = [] then none else some (parseCSSVarBlock content) :=
  (theme_first_block_only cssTwoDarkBlocks (toStr "dark") (by decide) (by decide)).1

/-- The per-block maps of the non-empty root blocks, in encounter order. -/
def rootBlockMaps (css : Str) : List (Store Str) :=
  ((rootBlocks css).filter (fun b => b ≠ [])).map parseCSSVarBlock

theorem rootFold_eq (blocks : List Str) :
    ∀ (m : Store Str),
    blocks.foldl (fun m b => if b = [] then m else assignStore m (parseCSSVarBlock b)) m =
    ((blocks.filter (fun b => b ≠ [])).map parseCSSVarBlock).foldl assignStore m := by
  induction blocks with
  | nil => intro m; rfl
  | cons b rest ih =>
    intro m
    rw [List.foldl_cons, List.filter_cons]
    by_cases hb : b = []
    · subst hb
      simpa using ih m
    · rw [if_neg hb, show (decide (¬ (b = []))) = true by simp [hb]]
      simp only [if_true, List.map_cons, List.foldl_cons]
      exact ih _

theorem findSome?_append {α β : Type} (l₁ l₂ : List α) (f : α → Option β) :
    (l₁ ++ l₂).findSome? f =
      match l₁.findSome? f with
      | some v => some v
      | none => l₂.findSome? f := by
  induction l₁ with
  | nil => simp [List.findSome?]
  | cons a l ih =>
    rw [List.cons_append, List.findSome?_cons, List.findSome?_cons]
    cases f a with
    | some v => rfl
    | none => exact ih

theorem lookup_foldl_assign (ms : List (Store Str)) :
    ∀ (m : Store Str) (n : Str),
    lookupStore (ms.foldl assignStore m) n =
      match ms.reverse.findSome? (fun s => lastLookup s n) with
      | some v => some v
      | none => lookupStore m n := by
  induction ms with
  | nil => intro m n; rfl
  | cons x xs ih =>
    intro m n
    rw [List.foldl_cons, ih, List.reverse_cons, findSome?_append]
    cases hx : xs.reverse.findSome? (fun s => lastLookup s n) with
    | some v => rfl
    | none =>
      rw [lookup_assign]
      simp only [List.findSome?_cons, List.findSome?_nil]
      cases lastLookup x n with
      | some v => rfl
      | none => rfl

theorem findSome?_congr {α β : Type} (l : List α) (f g : α → Option β)
    (h : ∀ a ∈ l, f a = g a) : l.findSome? f = l.findSome? g := by
  induction l with
  | nil => rfl
  | cons a t ih =>
    rw [List.findSome?_cons, List.findSome?_cons, h a (List.mem_cons_self a t)]
    cases g a with
    | some v => rfl
    | none => exact ih (fun a ha => h a (List.mem_cons_of_mem _ ha))

/-- What a first `[data-theme=root]` block contributes to the base map:
the lookup in the parse of its body, when such a block is present and
non-empty. -/
def rootThemeLookup (css n : Str) : Option Str :=
  match firstThemeBlock css rootKey with
  | none => none
  | some c => if c = [] then none else lookupStore (parseCSSVarBlock c) n

theorem lookup_rootFold (css n : Str) :
    lookupStore ((rootBlocks css).foldl (fun m b =>
        if b = [] then m else assignStore m (parseCSSVarBlock b)) emptyStore) n =
      (rootBlockMaps css).reverse.findSome? (fun s => lookupStore s n) := by
  rw [rootFold_eq, lookup_foldl_assign]
  have hcongr : (rootBlockMaps css).reverse.findSome? (fun s => lastLookup s n) =
      (rootBlockMaps css).reverse.findSome? (fun s => lookupStore s n) := by
    refine findSome?_congr _ _ _ ?_
    intro s hs
    rw [List.mem_reverse] at hs
    rcases List.mem_map.mp hs with ⟨b, _, hb⟩
    rw [← hb]
    exact lastLookup_eq_lookup _ n (nodupKeys_parseCSSVarBlock b)
  rw [show ((rootBlocks css).filter (fun b => b ≠ [])).map parseCSSVarBlock
      = rootBlockMaps css from rfl, hcongr]
  cases (rootBlockMaps css).reverse.findSome? (fun s => lookupStore s n) with
  | some v => rfl
  | none => rfl

/-- Counterexample to C3 as stated: with two base blocks, the palette front
end misses the second block's declaration while the token-explorer front
end merges it. -/
theorem base_merge_counterexample :
    lookupStore (extractCSSVars cssTwoRootBlocks (toStr "light")).rootVars
      (toStr "--b") = none ∧
    lookupStore (rootMapOf (parseTokensCSS cssTwoRootBlocks)) (toStr "--b") =
      some (toStr "2") := by
  refine ⟨?_, ?_⟩ <;> decide

/-- C3 as amended: the token-explorer front end merges every base block in
encounter order with later declarations overriding earlier ones (its
depth-aware extraction survives nested braces), a first `[data-theme=root]`
block merging in last through the shared map; the palette front end
extracts only the first base block, truncated at the first closing
brace. -/
theorem base_merge_amended (css n : Str) (hn : n ≠ probeName) :
    lookupStore (rootMapOf (parseTokensCSS css)) n =
      (match rootThemeLookup css n with
       | some v => some v
       | none => (rootBlockMaps css).reverse.findSome? (fun s => lookupStore s n)) ∧
    lookupStore (rootMapOf (parseTokensCSS cssDepthExample)) (toStr "--b") =
      some (toStr "2") ∧
    lookupStore (extractCSSVars cssDepthExample (toStr "light")).rootVars
      (toStr "--b") = none := by
  refine ⟨?_, by decide, by decide⟩
  unfold parseTokensCSS
  rw [rootMapOf_probeFix_ne css _ n hn]
  unfold rootMapOf
  rw [themeLoop_lookup (themeMatches css) [] (parseRootMapBase css) rootKey
    (by decide) (by simp)]
  rw [lookup_parseRootMapBase_self]
  unfold rootThemeLookup firstThemeBlock
  cases hh : ((themeMatches css).filter (fun p => cleanThemeName p.1 = rootKey)).head? with
  | none =>
    show lookupStore ((some _).getD emptyStore) n = _
    rw [Option.getD_some]
    exact lookup_rootFold css n
  | some p =>
    simp only [Option.map_some']
    by_cases h2 : extractBlockAtSuffix p.2 = []
    · rw [if_pos h2, if_pos h2]
      show lookupStore ((some _).getD emptyStore) n = _
      rw [Option.getD_some]
      exact lookup_rootFold css n
    · rw [if_neg h2, if_neg h2]
      show lookupStore (assignStore ((some _).getD emptyStore)
        (parseCSSVarBlock (extractBlockAtSuffix p.2))) n = _
      rw [Option.getD_some, lookup_assign,
        lastLookup_eq_lookup _ n (nodupKeys_parseCSSVarBlock _), lookup_rootFold css n]
      cases lookupStore (parseCSSVarBlock (extractBlockAtSuffix p.2)) n with
      | some v => rfl
      | none => rfl

/-- Concrete instance of the amended C3. -/
theorem base_merge_amended_witness :
    lookupStore (rootMapOf (parseTokensCSS cssTwoRootBlocks)) (toStr "--b") =
      (match rootThemeLookup cssTwoRootBlocks (toStr "--b") with
       | some v => some v
       | none => (rootBlockMaps cssTwoRootBlocks).reverse.findSome?
           (fun s => lookupStore s (toStr "--b"))) :=
  (base_merge_amended cssTwoRootBlocks (toStr "--b") (by decide)).1

/-- Counterexample to C8 as stated: a stylesheet with zero base declaration
blocks whose text still contains the probe declaration yields a non-empty
base map through the single-line probe fallback. -/
theorem empty_base_counterexample :
    rootBlocks (toStr "--prism-color-chart-accent-primary-figure-default:red;") = [] ∧
    rootMapOf (parseTokensCSS
        (toStr "--prism-color-chart-accent-primary-figure-default:red;")) =
      [(probeName, toStr "red")] := by
  refine ⟨?_, ?_⟩ <;> decide

/-- C8 as amended: with zero base blocks and no root-named theme block the
engine returns an empty base map unless the probe declaration text is
present, in which case the base map holds exactly the probe entry; a
root-named theme block alone already populates the base map through the
shared parse map; the palette front end returns an empty base map whenever
its root pattern has no match. -/
theorem empty_base_amended (css : Str) :
    (rootBlocks css = [] → firstThemeBlock css rootKey = none →
      strIncl css (probeName ++ [':']) = false →
      rootMapOf (parseTokensCSS css) = []) ∧
    (∀ v, rootBlocks css = [] → firstThemeBlock css rootKey = none →
      strIncl css (probeName ++ [':']) = true →
      probeDeclF (css.length + 1) css = some v →
      rootMapOf (parseTokensCSS css) = [(probeName, v)]) ∧
    (rootBlocks cssRootAlias = [] ∧
      strIncl cssRootAlias (probeName ++ [':']) = false ∧
      rootMapOf (parseTokensCSS cssRootAlias) = [(toStr "--a", toStr "1")]) ∧
    (palettesRootBlock css = none → ∀ θ, (extractCSSVars css θ).rootVars = []) := by
  have hloop : ∀ (hblocks : rootBlocks css = [])
      (hth : firstThemeBlock css rootKey = none),
      lookupStore (themeLoop (themeMatches css) [] (parseRootMapBase css)) rootKey =
        some [] := by
    intro hblocks hth
    rw [themeLoop_lookup (themeMatches css) [] (parseRootMapBase css) rootKey
      (by decide) (by simp)]
    unfold firstThemeBlock at hth
    rw [Option.map_eq_none'] at hth
    rw [hth, lookup_parseRootMapBase_self, hblocks]
    rfl
  refine ⟨?_, ?_, ⟨by decide, by decide, by decide⟩, ?_⟩
  · intro hblocks hth hprobe
    unfold parseTokensCSS probeFix
    rw [hprobe]
    rw [if_neg (by simp)]
    unfold rootMapOf
    rw [hloop hblocks hth]
    rfl
  · intro v hblocks hth hprobe hdecl
    unfold parseTokensCSS probeFix
    have hmap : rootMapOf (themeLoop (themeMatches css) [] (parseRootMapBase css)) = [] := by
      unfold rootMapOf
      rw [hloop hblocks hth]
      rfl
    rw [hmap, hprobe, hdecl]
    rw [if_pos ⟨rfl, rfl⟩]
    unfold rootMapOf
    rw [lookup_insert_self]
    rfl
  · intro hnone θ
    have hrv : (extractCSSVars css θ).rootVars =
        (match palettesRootBlock css with
         | some content => assignStore emptyStore (parseVarBlock content)
         | none => emptyStore) := rfl
    rw [hrv, hnone]
    rfl

/-- Concrete instance of the amended C8. -/
theorem empty_base_amended_witness :
    rootMapOf (parseTokensCSS (toStr "div\x7bcolor:red\x7d")) = [] ∧
    (extractCSSVars (toStr "div\x7bcolor:red\x7d") (toStr "light")).rootVars = [] := by
  constructor
  · exact (empty_base_amended (toStr "div\x7bcolor:red\x7d")).1
      (by decide) (by decide) (by decide)
  · exact (empty_base_amended (toStr "div\x7bcolor:red\x7d")).2.2.2 (by decide) (toStr "light")

end Prism
